import Mathlib

/-!
Finite-field reduction of FLINT (`fq.h`): the context accessors, the sparse
reduction `_fq_reduce`, the division-based `fq_reduce` and `fq_equal`.

The arbitrary-precision integers `fmpz` are Lean integers, a coefficient
buffer (`fmpz *` together with its length) is a `List Int`, and an access
outside a buffer (undefined behaviour in C) makes the embedded routine
return `none`.
-/

set_option autoImplicit false

/-! ## Data types and context -/

/-- The context of `fq.h` (`fq_ctx_struct`): the prime `p`, the sparse
modulus `a`, `j`, `len`, the dense `modulus` and the precomputed `inv`.
A polynomial (`fmpz_mod_poly_t`) is the list of its `length` coefficients. -/
structure fq_ctx_struct where
  p : Int
  a : List Int
  j : List Int
  len : Nat
  modulus : List Int
  inv : List Int
deriving DecidableEq

/-- Coefficient `n` of a coefficient buffer, `0` beyond its end. -/
def coeff (l : List Int) (n : Nat) : Int := l.getD n 0

/-- Width of `long` and `ulong` on the 64-bit targets of the library. -/
def FLINT_BITS : Nat := 64

/-- Conversion of a `long` argument to an `ulong` parameter. -/
def ulong_of_long (x : Int) : Nat := (x % (2 : Int) ^ FLINT_BITS).toNat

/-! ## External arithmetic, modelled from the specification -/

/-- Modelled from the spec: `fmpz_mod` is missing from the sources; it is
"the standard mathematical modulo (non-negative representative), not
truncating/symmetric remainder" of `g` by `h`. -/
def fmpz_mod (g h : Int) : Int := g % h

/-- Modelled from the spec: `fmpz_pow_ui` is missing from the sources; it
is "big-integer exponentiation" of `g` to the unsigned power `e`. -/
def fmpz_pow_ui (g : Int) (e : Nat) : Int := g ^ e

/-- Modelled from the spec: `_fmpz_vec_scalar_mod_fmpz(vec, vec, len, p)` is
missing from the sources; it does "apply the integer modulus p
coefficient-wise" to the first `len` entries of the buffer, in place. -/
def _fmpz_vec_scalar_mod_fmpz (vec : List Int) (len : Nat) (p : Int) : List Int :=
  (vec.take len).map (fun c => fmpz_mod c p) ++ vec.drop len

/-- Modelled from the spec: the macro `FMPZ_VEC_NORM(vec, i)` is missing from
the sources; it lowers the length `i` while the entry `vec[i - 1]` is zero
("strip trailing zeros"). -/
def FMPZ_VEC_NORM (vec : List Int) : Nat → Nat
  | 0 => 0
  | i + 1 => if coeff vec i = 0 then FMPZ_VEC_NORM vec i else i + 1

/-- Modelled from the spec: `_fmpz_poly_normalise` is missing from the
sources; it is the "normalization operation that drops trailing zero
coefficients" of a polynomial, by lowering its length. -/
def _fmpz_poly_normalise (poly : List Int) : List Int :=
  poly.take (FMPZ_VEC_NORM poly poly.length)

/-- Modelled from the spec: `fmpz_poly_equal` is missing from the sources; it
is the "structural comparison of ... coefficient sequences": same length and
same coefficients. -/
def fmpz_poly_equal (op1 op2 : List Int) : Bool := decide (op1 = op2)

/-! ## Context accessors -/

/-- `fq_ctx_degree`: `ctx->modulus->length - 1`, a `long`. -/
def fq_ctx_degree (ctx : fq_ctx_struct) : Int := (ctx.modulus.length : Int) - 1

/-- `fq_ctx_prime`: the address of the prime of the context. -/
def fq_ctx_prime (ctx : fq_ctx_struct) : Int := ctx.p

/-- `fq_ctx_order`: `fmpz_set(f, p)` then `fmpz_pow_ui(f, f, degree)`; the
`long` degree is passed as the `ulong` exponent. -/
def fq_ctx_order (ctx : fq_ctx_struct) : Int :=
  let f := fq_ctx_prime ctx
  fmpz_pow_ui f (ulong_of_long (fq_ctx_degree ctx))

/-! ## The sparse reduction `_fq_reduce` -/

/-- The inner loop of `_fq_reduce`, `for (k = n - 1; k >= 0; k--)` (called
with `n = len - 1`): `fmpz_submul(R + j[k] + i - d, R + i, a + k)`, that is
`R[j[k] + i - d] -= R[i] * a[k]`. -/
def fq_reduce_inner (a j : List Int) (d : Int) (i : Nat) : Nat → List Int → Option (List Int)
  | 0, R => some R
  | k + 1, R =>
    match j[k]?, a[k]?, R[i]? with
    | some jk, some ak, some Ri =>
      let t := jk + (i : Int) - d
      if 0 ≤ t ∧ t < (R.length : Int) then
        fq_reduce_inner a j d i k (R.set t.toNat (coeff R t.toNat - Ri * ak))
      else none
    | _, _, _ => none

/-- The outer loop of `_fq_reduce`, `for (i = n - 1; i >= d; i--)` (called
with `n = lenR`): the inner loop over the non-leading terms, then
`fmpz_zero(R + i)`. -/
def fq_reduce_outer (a j : List Int) (len : Nat) (d : Int) : Nat → List Int → Option (List Int)
  | 0, R => if d ≤ -1 then none else some R
  | i + 1, R =>
    if d ≤ (i : Int) then
      match fq_reduce_inner a j d i (len - 1) R with
      | some R1 => if i < R1.length then fq_reduce_outer a j len d i (R1.set i 0) else none
      | none => none
    else some R

/-- `_fq_reduce(R, lenR, a, j, len, p)`; the buffer `R` is the list of its
`lenR` entries, the result is the buffer afterwards. -/
def _fq_reduce (R : List Int) (a j : List Int) (len : Nat) (p : Int) : Option (List Int) :=
  if len = 0 then none else
  match j[len - 1]? with
  | none => none
  | some d =>
    let lenR := FMPZ_VEC_NORM R R.length
    let R1 := if (lenR : Int) > d then fq_reduce_outer a j len d lenR R else some R
    R1.map fun R2 => _fmpz_vec_scalar_mod_fmpz R2 (min d (lenR : Int)).toNat p

/-! ## The division-based reduction `fq_reduce` -/

/-- `fq_reduce(rop, ctx)`. The Newton division
`_fmpz_mod_poly_divrem_newton_preinv` is external: `divrem A B Binv p` is the
remainder buffer `r` it fills (the quotient is discarded). -/
def fq_reduce (divrem : List Int → List Int → List Int → Int → List Int)
    (rop : List Int) (ctx : fq_ctx_struct) : List Int :=
  if rop.length < ctx.modulus.length then
    _fmpz_poly_normalise (_fmpz_vec_scalar_mod_fmpz rop rop.length (fq_ctx_prime ctx))
  else
    let r := divrem rop ctx.modulus ctx.inv (fq_ctx_prime ctx)
    _fmpz_poly_normalise r

/-- `fq_equal(op1, op2)`: `fmpz_poly_equal(op1, op2)`. -/
def fq_equal (op1 op2 : List Int) : Bool := fmpz_poly_equal op1 op2

/-! ## Assignments and conversions -/

/-- Modelled from the spec: `fmpz_poly_zero` is missing from the sources; it
is the "zero ... construction" of a polynomial, and "a length-0 sequence
represents the zero element". -/
def fmpz_poly_zero (_poly : List Int) : List Int := []

/-- Modelled from the spec: `fmpz_poly_is_zero` is missing from the sources;
the zero polynomial is the sequence of length `0` ("length query"). -/
def fmpz_poly_is_zero (poly : List Int) : Bool := decide (poly.length = 0)

/-- Modelled from the spec: `fmpz_poly_set_coeff_fmpz` is missing from the
sources; it is the "coefficient ... set by index" of the "ordered, resizable
coefficient sequence": the sequence is extended by zeros up to the position
`n`, the entry `n` becomes `x`, and the polynomial is left in normalised form
("drops trailing zero coefficients"). -/
def fmpz_poly_set_coeff_fmpz (poly : List Int) (n : Nat) (x : Int) : List Int :=
  _fmpz_poly_normalise ((poly ++ List.replicate (n + 1 - poly.length) 0).set n x)

/-- Modelled from the spec: `fmpz_poly_set_coeff_ui` is missing from the
sources; it is `fmpz_poly_set_coeff_fmpz` for an unsigned value `x`. -/
def fmpz_poly_set_coeff_ui (poly : List Int) (n : Nat) (x : Nat) : List Int :=
  fmpz_poly_set_coeff_fmpz poly n (x : Int)

/-- Modelled from the spec: `fmpz_init_set_ui` is missing from the sources;
it is the "initialization" of an integer with the value of the unsigned `x`. -/
def fmpz_init_set_ui (x : Nat) : Int := (x : Int)

/-- `fq_is_zero(op, ctx)`: `fmpz_poly_is_zero(op)`. -/
def fq_is_zero (op : List Int) (_ctx : fq_ctx_struct) : Bool := fmpz_poly_is_zero op

/-- `fq_set_fmpz(rop, x, ctx)`: `fmpz_mod(rx, x, p)`, `fmpz_poly_zero(rop)`,
`fmpz_poly_set_coeff_fmpz(rop, 0, rx)`. -/
def fq_set_fmpz (rop : List Int) (x : Int) (ctx : fq_ctx_struct) : List Int :=
  let rx := fmpz_mod x (fq_ctx_prime ctx)
  let rop := fmpz_poly_zero rop
  fmpz_poly_set_coeff_fmpz rop 0 rx

/-- `fq_set_ui(rop, x, ctx)`: `fmpz_init_set_ui(rx, x)`, `fmpz_mod(rx, rx, p)`,
`fmpz_poly_zero(rop)`, `fmpz_poly_set_coeff_fmpz(rop, 0, rx)`. -/
def fq_set_ui (rop : List Int) (x : Nat) (ctx : fq_ctx_struct) : List Int :=
  let rx := fmpz_init_set_ui x
  let rx := fmpz_mod rx (fq_ctx_prime ctx)
  let rop := fmpz_poly_zero rop
  fmpz_poly_set_coeff_fmpz rop 0 rx

/-- `fq_gen(rop, ctx)`: `fmpz_poly_zero(rop)`, `fmpz_poly_set_coeff_ui(rop, 0, 0)`,
`fmpz_poly_set_coeff_ui(rop, 1, 1)`. -/
def fq_gen (rop : List Int) (_ctx : fq_ctx_struct) : List Int :=
  let rop := fmpz_poly_zero rop
  let rop := fmpz_poly_set_coeff_ui rop 0 0
  fmpz_poly_set_coeff_ui rop 1 1

/-! ## Matrices of polynomials (`fmpz_poly_mat/max_length.c`) -/

/-- A matrix of polynomials (`fmpz_poly_mat_struct`): `r` rows, `c` columns
and the entries `rows[i][j]`. -/
structure fmpz_poly_mat_struct where
  r : Nat
  c : Nat
  rows : Nat → Nat → List Int

/-- Modelled from the spec: the macro `fmpz_poly_mat_entry(A, i, j)` is missing
from the sources; it is the entry `(i, j)` of the "matrix of polynomials". -/
def fmpz_poly_mat_entry (A : fmpz_poly_mat_struct) (i j : Nat) : List Int := A.rows i j

/-- Modelled from the spec: `fmpz_poly_length` is missing from the sources; it
is the "length query", the "coefficient-sequence length" of a polynomial. -/
def fmpz_poly_length (poly : List Int) : Int := (poly.length : Int)

/-- Modelled from the spec: the macro `FLINT_MAX(x, y)` is missing from the
sources; it is the "maximum" of its two arguments. -/
def FLINT_MAX (x y : Int) : Int := if x > y then x else y

/-- The inner loop of `fmpz_poly_mat_max_length`: the value of `max` after the
columns `0 .. n - 1` of the row `i`, started from `max0`. -/
def max_length_cols (A : fmpz_poly_mat_struct) (i : Nat) (max0 : Int) : Nat → Int
  | 0 => max0
  | j + 1 =>
    let max := max_length_cols A i max0 j
    let len := fmpz_poly_length (fmpz_poly_mat_entry A i j)
    FLINT_MAX len max

/-- The outer loop of `fmpz_poly_mat_max_length`: the value of `max` after the
rows `0 .. n - 1`, started from `max = 0`. -/
def max_length_rows (A : fmpz_poly_mat_struct) : Nat → Int
  | 0 => 0
  | i + 1 => max_length_cols A i (max_length_rows A i) A.c

/-- `fmpz_poly_mat_max_length(A)`. -/
def fmpz_poly_mat_max_length (A : fmpz_poly_mat_struct) : Int := max_length_rows A A.r

/-! ## Specification vocabulary -/

/-- Coefficient `n` of the product of the polynomial with coefficient list
`q` by the polynomial with coefficients `f`. -/
def mul_coeff (q : List Int) (f : Nat → Int) (n : Nat) : Int :=
  ∑ k in Finset.range (n + 1), coeff q k * f (n - k)

/-- The polynomials held in `A` and `B` are congruent modulo `p` and modulo
the polynomial with coefficients `f`: `A - B = q * f + p * s` for some
polynomials `q` and `s`. -/
def CongruentMod (p : Int) (f : Nat → Int) (A B : List Int) : Prop :=
  ∃ q : List Int, ∀ n, p ∣ coeff A n - coeff B n - mul_coeff q f n

/-- Coefficient `n` of the polynomial that the sparse terms stand for,
`x^d + sum_{k < len - 1} a[k] x^{j[k]}` with `d = j[len - 1]`. -/
def sparse_modulus_coeff (a j : List Int) (len : Nat) (n : Nat) : Int :=
  (if coeff j (len - 1) = (n : Int) then 1 else 0) +
    ∑ k in Finset.range (len - 1), if coeff j k = (n : Int) then coeff a k else 0

/-- The sparse terms `(a, j, len)` are well formed for the degree `d`: there
are `len >= 1` of them, the last exponent is `d` and every other exponent
lies in `[0, d)`. -/
def SparseModulus (a j : List Int) (len d : Nat) : Prop :=
  1 ≤ len ∧ a.length = len ∧ j.length = len ∧ coeff j (len - 1) = (d : Int) ∧
    ∀ k, k < len - 1 → 0 ≤ coeff j k ∧ coeff j k < (d : Int)

instance (a j : List Int) (len d : Nat) : Decidable (SparseModulus a j len d) := by
  unfold SparseModulus; infer_instance

/-- Every coefficient of the buffer is a residue in `[0, p)`. -/
def InRange (p : Int) (l : List Int) : Prop := ∀ c ∈ l, 0 ≤ c ∧ c < p

instance (p : Int) (l : List Int) : Decidable (InRange p l) := by
  unfold InRange; infer_instance

/-- The buffer has no trailing zero coefficient. -/
def Normalised (l : List Int) : Prop := l.getLast? ≠ some 0

instance (l : List Int) : Decidable (Normalised l) := by
  unfold Normalised; infer_instance

/-- Canonical element of the field of degree `d` over `p`: at most `d`
coefficients, each in `[0, p)`, no trailing zero. -/
def Canonical (p : Int) (d : Nat) (l : List Int) : Prop :=
  l.length ≤ d ∧ InRange p l ∧ Normalised l

instance (p : Int) (d : Nat) (l : List Int) : Decidable (Canonical p d l) := by
  unfold Canonical; infer_instance

/-- Modelled from the spec: the result that the external
`_fmpz_mod_poly_divrem_newton_preinv` leaves in its remainder buffer `r` for
the dividend `A` and the monic `modulus`: "the remainder" of the "full
polynomial division of the over-degree result by the modulus", with
`length(modulus) - 1` coefficients in `[0, p)`. -/
def NewtonRemainder (p : Int) (modulus A r : List Int) : Prop :=
  r.length = modulus.length - 1 ∧ InRange p r ∧ CongruentMod p (coeff modulus) A r

/-! ## Two concrete fields -/

/-- The field with `2^3` elements, modulus `x^3 + x + 1`. -/
def ctx_gf8 : fq_ctx_struct :=
  { p := 2, a := [1, 1, 1], j := [0, 1, 3], len := 3, modulus := [1, 1, 0, 1],
    inv := [1, 0, 1, 1] }

/-- The field with `5^2` elements, modulus `x^2 + 2`. -/
def ctx_gf25 : fq_ctx_struct :=
  { p := 5, a := [2, 1], j := [0, 2], len := 2, modulus := [2, 0, 1], inv := [1, 0, 3] }

/-- The field with `5` elements as an extension of degree `1`, modulus
`x + 2`. -/
def ctx_gf5 : fq_ctx_struct :=
  { p := 5, a := [2, 1], j := [0, 1], len := 2, modulus := [2, 1], inv := [1, 3] }

/-- A `2 x 2` matrix of polynomials with the entries `1 + x`, `0`, `x^2` and
`3`. -/
def mat_2x2 : fmpz_poly_mat_struct :=
  { r := 2, c := 2,
    rows := fun i j =>
      if i = 0 ∧ j = 0 then [1, 1] else if i = 0 ∧ j = 1 then []
      else if i = 1 ∧ j = 0 then [0, 0, 1] else if i = 1 ∧ j = 1 then [3] else [] }

/-! ## Buffers and coefficients -/

theorem coeff_of_length_le (l : List Int) (n : Nat) (h : l.length ≤ n) : coeff l n = 0 := by
  unfold coeff
  rw [List.getD_eq_getElem?_getD, List.getElem?_eq_none h]
  rfl

theorem coeff_of_lt (l : List Int) (n : Nat) (h : n < l.length) : coeff l n = l[n] := by
  unfold coeff
  rw [List.getD_eq_getElem?_getD, List.getElem?_eq_getElem h]
  rfl

theorem coeff_set (R : List Int) (t : Nat) (v : Int) (n : Nat) (ht : t < R.length) :
    coeff (R.set t v) n = if n = t then v else coeff R n := by
  unfold coeff
  rw [List.getD_eq_getElem?_getD, List.getD_eq_getElem?_getD, List.getElem?_set]
  by_cases h : t = n
  · subst h; simp [ht]
  · have h2 : ¬ n = t := fun e => h e.symm
    simp [h, h2]

theorem coeff_mem_of_lt (l : List Int) (n : Nat) (h : n < l.length) : coeff l n ∈ l := by
  rw [coeff_of_lt l n h]; exact List.getElem_mem h

theorem coeff_take (l : List Int) (m n : Nat) :
    coeff (l.take m) n = if n < m then coeff l n else 0 := by
  unfold coeff
  rw [List.getD_eq_getElem?_getD, List.getD_eq_getElem?_getD]
  by_cases h : n < m
  · simp [h, List.getElem?_take]
  · simp [h, List.getElem?_take]

theorem coeff_scalar_mod (vec : List Int) (len : Nat) (p : Int) (n : Nat) :
    coeff (_fmpz_vec_scalar_mod_fmpz vec len p) n =
      if n < len then coeff vec n % p else coeff vec n := by
  unfold _fmpz_vec_scalar_mod_fmpz coeff fmpz_mod
  simp only [List.getD_eq_getElem?_getD]
  by_cases h : n < len
  · by_cases h2 : n < vec.length
    · rw [List.getElem?_append_left (by simp; omega)]
      simp [h, h2, List.getElem?_take]
    · rw [List.getElem?_eq_none (by simp; omega), List.getElem?_eq_none (by omega)]
      simp [h]
  · by_cases h2 : vec.length ≤ len
    · rw [List.getElem?_eq_none (by simp; omega), List.getElem?_eq_none (by omega)]
      simp [h]
    · rw [List.getElem?_append_right (by simp; omega)]
      simp only [List.length_map, List.length_take, h, if_false, List.getElem?_drop]
      congr 2
      omega

theorem length_scalar_mod (vec : List Int) (len : Nat) (p : Int) :
    (_fmpz_vec_scalar_mod_fmpz vec len p).length = vec.length := by
  unfold _fmpz_vec_scalar_mod_fmpz
  simp
  omega

theorem FMPZ_VEC_NORM_le (vec : List Int) (n : Nat) : FMPZ_VEC_NORM vec n ≤ n := by
  induction n with
  | zero => simp [FMPZ_VEC_NORM]
  | succ n ih =>
    unfold FMPZ_VEC_NORM
    split <;> omega

theorem FMPZ_VEC_NORM_zero_above (vec : List Int) (n m : Nat)
    (h1 : FMPZ_VEC_NORM vec n ≤ m) (h2 : m < n) : coeff vec m = 0 := by
  induction n with
  | zero => omega
  | succ n ih =>
    unfold FMPZ_VEC_NORM at h1
    split at h1
    · rename_i hz
      by_cases hm : m = n
      · subst hm; exact hz
      · exact ih h1 (by omega)
    · omega

theorem FMPZ_VEC_NORM_last (vec : List Int) (n : Nat) (h : 0 < FMPZ_VEC_NORM vec n) :
    coeff vec (FMPZ_VEC_NORM vec n - 1) ≠ 0 := by
  induction n with
  | zero => simp [FMPZ_VEC_NORM] at h
  | succ n ih =>
    unfold FMPZ_VEC_NORM at h ⊢
    split
    · rename_i hz
      simp only [hz, if_true] at h
      exact ih h
    · rename_i hz
      simpa using hz

/-- Effect of the inner loop on the coefficients: every term `k < n` subtracts
`R[i] * a[k]` at position `j[k] + i - d`, and no access leaves the buffer. -/
theorem fq_reduce_inner_spec (a j : List Int) (d i : Nat) (hdi : d ≤ i) :
    ∀ (k : Nat) (R : List Int), k ≤ a.length → k ≤ j.length → i < R.length →
      (∀ k', k' < k → 0 ≤ coeff j k' ∧ coeff j k' < (d : Int)) →
      ∃ R', fq_reduce_inner a j d i k R = some R' ∧ R'.length = R.length ∧
        ∀ n : Nat, coeff R' n = coeff R n - coeff R i *
          ∑ k' in Finset.range k,
            if coeff j k' + (i : Int) - (d : Int) = (n : Int) then coeff a k' else 0 := by
  intro k
  induction k with
  | zero =>
    intro R _ _ _ _
    exact ⟨R, by simp [fq_reduce_inner], rfl, by simp⟩
  | succ k ih =>
    intro R hka hkj hi hj
    have hjk := hj k (Nat.lt_succ_self k)
    have e1 : j[k]? = some (coeff j k) := by
      rw [coeff_of_lt j k (by omega)]; exact List.getElem?_eq_getElem (by omega)
    have e2 : a[k]? = some (coeff a k) := by
      rw [coeff_of_lt a k (by omega)]; exact List.getElem?_eq_getElem (by omega)
    have e3 : R[i]? = some (coeff R i) := by
      rw [coeff_of_lt R i hi]; exact List.getElem?_eq_getElem hi
    obtain ⟨t, ht⟩ : ∃ t : Nat, coeff j k + (i : Int) - (d : Int) = (t : Int) :=
      ⟨(coeff j k + (i : Int) - (d : Int)).toNat, by omega⟩
    have hti : t < i := by omega
    have htR : t < R.length := by omega
    have hcond : 0 ≤ (t : Int) ∧ (t : Int) < (R.length : Int) := by omega
    obtain ⟨R', hR', hlen, hco⟩ := ih (R.set t (coeff R t - coeff R i * coeff a k))
      (by omega) (by omega) (by simpa using hi) (fun k' hk' => hj k' (by omega))
    refine ⟨R', ?_, by simpa using hlen, ?_⟩
    · rw [fq_reduce_inner, e1, e2, e3]
      simp only [ht, hcond, and_self, if_true, Int.toNat_ofNat]
      exact hR'
    · intro n
      rw [hco n, coeff_set _ _ _ _ htR, coeff_set _ _ _ _ htR, Finset.sum_range_succ, ht]
      have hit : ¬ i = t := by omega
      simp only [hit, if_false]
      by_cases hn : n = t
      · subst hn; simp; ring
      · have hn' : ¬ (t : Int) = (n : Int) := by omega
        simp [hn, hn']

theorem sparse_modulus_coeff_leading (a j : List Int) (len d : Nat)
    (h : SparseModulus a j len d) : sparse_modulus_coeff a j len d = 1 := by
  obtain ⟨_, _, _, hd, hj⟩ := h
  unfold sparse_modulus_coeff
  rw [if_pos hd, Finset.sum_eq_zero, add_zero]
  intro k hk
  have := hj k (Finset.mem_range.mp hk)
  rw [if_neg (by omega)]

theorem sparse_modulus_coeff_above (a j : List Int) (len d : Nat)
    (h : SparseModulus a j len d) (n : Nat) (hn : d < n) :
    sparse_modulus_coeff a j len n = 0 := by
  obtain ⟨_, _, _, hd, hj⟩ := h
  unfold sparse_modulus_coeff
  rw [if_neg (by omega), Finset.sum_eq_zero, add_zero]
  intro k hk
  have := hj k (Finset.mem_range.mp hk)
  rw [if_neg (by omega)]

/-- One round of the outer loop, for the position `i`: the buffer loses
`R[i] * x^(i - d) * f(x)`, where `f` is the sparse modulus. -/
theorem fq_reduce_round_spec (a j : List Int) (len d i : Nat)
    (h : SparseModulus a j len d) (hdi : d ≤ i) (R : List Int) (hi : i < R.length) :
    ∃ R1, fq_reduce_inner a j d i (len - 1) R = some R1 ∧ R1.length = R.length ∧
      ∀ n : Nat, coeff (R1.set i 0) n = coeff R n - coeff R i *
        (if i - d ≤ n then sparse_modulus_coeff a j len (n - (i - d)) else 0) := by
  have h' := h
  obtain ⟨hlen, ha, hj, hd, hjk⟩ := h'
  obtain ⟨R1, hR1, hl, hco⟩ := fq_reduce_inner_spec a j d i hdi (len - 1) R
    (by omega) (by omega) hi hjk
  refine ⟨R1, hR1, hl, ?_⟩
  intro n
  rw [coeff_set _ _ _ _ (by omega)]
  by_cases hn : n = i
  · subst hn
    have e : n - (n - d) = d := by omega
    rw [if_pos rfl, if_pos (by omega), e, sparse_modulus_coeff_leading a j len d h]
    ring
  · rw [if_neg hn, hco n]
    congr 1
    congr 1
    by_cases hle : i - d ≤ n
    · rw [if_pos hle]
      unfold sparse_modulus_coeff
      rw [if_neg (by omega), zero_add]
      apply Finset.sum_congr rfl
      intro k _
      by_cases hk : coeff j k + (i : Int) - (d : Int) = (n : Int)
      · rw [if_pos hk, if_pos (by omega)]
      · rw [if_neg hk, if_neg (by omega)]
    · rw [if_neg hle]
      apply Finset.sum_eq_zero
      intro k hk
      have := hjk k (Finset.mem_range.mp hk)
      rw [if_neg (by omega)]

/-- The outer loop started at `n` (positions `n - 1` down to `d`) never
leaves the buffer, zeroes the positions `d .. n - 1`, keeps the positions from
`n` on, and subtracts a multiple `q * f` of the sparse modulus. -/
theorem fq_reduce_outer_spec (a j : List Int) (len d : Nat) (h : SparseModulus a j len d) :
    ∀ (n : Nat) (R : List Int), n ≤ R.length →
      ∃ R', fq_reduce_outer a j len d n R = some R' ∧ R'.length = R.length ∧
        (∀ m, d ≤ m → m < n → coeff R' m = 0) ∧
        (∀ m, n ≤ m → coeff R' m = coeff R m) ∧
        ∃ q : Nat → Int, (∀ k, n - d ≤ k → q k = 0) ∧
          ∀ m, coeff R m - coeff R' m =
            ∑ k in Finset.range (m + 1), q k * sparse_modulus_coeff a j len (m - k) := by
  intro n
  induction n with
  | zero =>
    intro R _
    refine ⟨R, ?_, rfl, ?_, fun _ _ => rfl, fun _ => 0, fun _ _ => rfl, ?_⟩
    · rw [fq_reduce_outer, if_neg (by omega)]
    · intro m _ hm; omega
    · intro m; simp
  | succ i ih =>
    intro R hR
    by_cases hdi : d ≤ i
    · obtain ⟨R1, hR1, hl1, hco1⟩ := fq_reduce_round_spec a j len d i h hdi R (by omega)
      obtain ⟨R', hR', hl, hz, hfr, q, hq, hsum⟩ := ih (R1.set i 0) (by simp; omega)
      refine ⟨R', ?_, ?_, ?_, ?_, fun k => q k + if k = i - d then coeff R i else 0, ?_, ?_⟩
      · rw [fq_reduce_outer, if_pos (by omega), hR1]
        simp only
        rw [if_pos (by omega)]
        exact hR'
      · rw [hl]; simpa using hl1
      · intro m hdm hm
        by_cases hmi : m = i
        · subst hmi
          rw [hfr m le_rfl, coeff_set _ _ _ _ (by omega), if_pos rfl]
        · exact hz m hdm (by omega)
      · intro m hm
        rw [hfr m (by omega), hco1 m, if_pos (by omega),
          sparse_modulus_coeff_above a j len d h _ (by omega)]
        ring
      · intro k hk
        show q k + (if k = i - d then coeff R i else 0) = 0
        rw [hq k (by omega), if_neg (by omega)]
        rfl
      · intro m
        have e : coeff R m - coeff R' m =
            (coeff R m - coeff (R1.set i 0) m) + (coeff (R1.set i 0) m - coeff R' m) := by ring
        rw [e, hsum m, hco1 m]
        simp only [add_mul, Finset.sum_add_distrib, ite_mul, zero_mul, Finset.sum_ite_eq',
          Finset.mem_range]
        by_cases hle : i - d ≤ m
        · rw [if_pos hle, if_pos (by omega)]; ring
        · rw [if_neg hle, if_neg (by omega)]; ring
    · refine ⟨R, ?_, rfl, ?_, fun _ _ => rfl, fun _ => 0, fun _ _ => rfl, ?_⟩
      · rw [fq_reduce_outer, if_neg (by omega)]
      · intro m _ hm; omega
      · intro m; simp

theorem coeff_map_range (q : Nat → Int) (N : Nat) (hq : ∀ k, N ≤ k → q k = 0) (k : Nat) :
    coeff ((List.range N).map q) k = q k := by
  by_cases hk : k < N
  · rw [coeff_of_lt _ _ (by simpa using hk)]
    simp
  · rw [coeff_of_length_le _ _ (by simp; omega), hq k (by omega)]

theorem coeff_zero_of_norm_le (R : List Int) (m : Nat)
    (hm : FMPZ_VEC_NORM R R.length ≤ m) : coeff R m = 0 := by
  by_cases h : m < R.length
  · exact FMPZ_VEC_NORM_zero_above R R.length m hm h
  · exact coeff_of_length_le R m (by omega)

theorem mul_coeff_nil (f : Nat → Int) (n : Nat) : mul_coeff [] f n = 0 := by
  unfold mul_coeff
  apply Finset.sum_eq_zero
  intro k _
  rw [coeff_of_length_le [] k (by simp), zero_mul]

/-- Full description of `_fq_reduce` on a well-formed sparse modulus: it
returns a buffer of the same length, and for some quotient `q` the exact
difference `R - q * f` has no coefficient from `d` on and the result holds its
coefficientwise non-negative residues modulo `p`. -/
theorem fq_reduce_sparse_spec (R a j : List Int) (len d : Nat) (p : Int)
    (h : SparseModulus a j len d) :
    ∃ R', _fq_reduce R a j len p = some R' ∧ R'.length = R.length ∧
      ∃ q : List Int,
        (∀ m, d ≤ m → coeff R m - mul_coeff q (sparse_modulus_coeff a j len) m = 0) ∧
        ∀ m, coeff R' m = (coeff R m - mul_coeff q (sparse_modulus_coeff a j len) m) % p := by
  have h' := h
  obtain ⟨hlen, ha, hj, hd, hjk⟩ := h'
  have ej : j[len - 1]? = some (d : Int) := by
    rw [← hd, coeff_of_lt j (len - 1) (by omega)]
    exact List.getElem?_eq_getElem (by omega)
  have hnle := FMPZ_VEC_NORM_le R R.length
  by_cases hL : d < FMPZ_VEC_NORM R R.length
  · obtain ⟨R1, hR1, hl, hz, hfr, q, hq, hsum⟩ :=
      fq_reduce_outer_spec a j len d h (FMPZ_VEC_NORM R R.length) R hnle
    have hmin : (min (d : Int) ((FMPZ_VEC_NORM R R.length : Nat) : Int)).toNat = d := by omega
    have hmul : ∀ m, mul_coeff ((List.range (FMPZ_VEC_NORM R R.length - d)).map q)
        (sparse_modulus_coeff a j len) m = coeff R m - coeff R1 m := by
      intro m
      rw [hsum m]
      unfold mul_coeff
      apply Finset.sum_congr rfl
      intro k _
      rw [coeff_map_range q _ hq k]
    have hhigh : ∀ m, d ≤ m → coeff R1 m = 0 := by
      intro m hm
      by_cases hmL : m < FMPZ_VEC_NORM R R.length
      · exact hz m hm hmL
      · rw [hfr m (by omega)]
        exact coeff_zero_of_norm_le R m (by omega)
    refine ⟨_fmpz_vec_scalar_mod_fmpz R1 d p, ?_, ?_,
      (List.range (FMPZ_VEC_NORM R R.length - d)).map q, ?_, ?_⟩
    · rw [_fq_reduce, if_neg (by omega), ej]
      simp only
      rw [if_pos (by omega), hR1, hmin]
      rfl
    · rw [length_scalar_mod, hl]
    · intro m hm
      rw [hmul m, hhigh m hm]
      ring
    · intro m
      rw [hmul m, coeff_scalar_mod]
      have e : coeff R m - (coeff R m - coeff R1 m) = coeff R1 m := by ring
      rw [e]
      by_cases hm : m < d
      · rw [if_pos hm]
      · rw [if_neg hm, hhigh m (by omega)]
        rfl
  · have hmin : (min (d : Int) ((FMPZ_VEC_NORM R R.length : Nat) : Int)).toNat
        = FMPZ_VEC_NORM R R.length := by omega
    refine ⟨_fmpz_vec_scalar_mod_fmpz R (FMPZ_VEC_NORM R R.length) p, ?_, ?_, [], ?_, ?_⟩
    · rw [_fq_reduce, if_neg (by omega), ej]
      simp only
      rw [if_neg (by omega), hmin]
      rfl
    · rw [length_scalar_mod]
    · intro m hm
      rw [mul_coeff_nil, coeff_zero_of_norm_le R m (by omega)]
      ring
    · intro m
      rw [mul_coeff_nil, coeff_scalar_mod, sub_zero]
      by_cases hm : m < FMPZ_VEC_NORM R R.length
      · rw [if_pos hm]
      · rw [if_neg hm, coeff_zero_of_norm_le R m (by omega)]
        rfl

/-! ## Normal forms -/

theorem normalised_iff (l : List Int) :
    Normalised l ↔ (0 < l.length → coeff l (l.length - 1) ≠ 0) := by
  unfold Normalised
  rw [List.getLast?_eq_getElem?]
  by_cases h : 0 < l.length
  · rw [List.getElem?_eq_getElem (by omega), coeff_of_lt l _ (by omega)]
    simp [h]
  · have : l = [] := List.length_eq_zero.mp (by omega)
    subst this
    simp

theorem coeff_normalise (l : List Int) (n : Nat) :
    coeff (_fmpz_poly_normalise l) n = coeff l n := by
  unfold _fmpz_poly_normalise
  rw [coeff_take]
  by_cases h : n < FMPZ_VEC_NORM l l.length
  · rw [if_pos h]
  · rw [if_neg h, coeff_zero_of_norm_le l n (by omega)]

theorem length_normalise (l : List Int) :
    (_fmpz_poly_normalise l).length = FMPZ_VEC_NORM l l.length := by
  unfold _fmpz_poly_normalise
  have := FMPZ_VEC_NORM_le l l.length
  simp
  omega

theorem normalised_normalise (l : List Int) : Normalised (_fmpz_poly_normalise l) := by
  rw [normalised_iff]
  intro h
  rw [coeff_normalise, length_normalise]
  rw [length_normalise] at h
  exact FMPZ_VEC_NORM_last l l.length h

theorem normalise_of_normalised (l : List Int) (h : Normalised l) :
    _fmpz_poly_normalise l = l := by
  rw [normalised_iff] at h
  unfold _fmpz_poly_normalise
  have e : FMPZ_VEC_NORM l l.length = l.length := by
    cases hn : l.length with
    | zero => rfl
    | succ n =>
      rw [hn] at h
      have := h (by omega)
      simp only [Nat.add_sub_cancel] at this
      rw [FMPZ_VEC_NORM, if_neg this]
  rw [e, List.take_length]

theorem eq_of_coeff_eq (x y : List Int) (hl : x.length = y.length)
    (h : ∀ n, coeff x n = coeff y n) : x = y := by
  apply List.ext_getElem hl
  intro n h1 h2
  rw [← coeff_of_lt x n h1, ← coeff_of_lt y n h2]
  exact h n

theorem length_le_of_coeff_eq (x y : List Int) (hx : Normalised x)
    (h : ∀ n, coeff x n = coeff y n) : x.length ≤ y.length := by
  rw [normalised_iff] at hx
  by_contra hlt
  have h1 := hx (by omega)
  rw [h, coeff_of_length_le y _ (by omega)] at h1
  exact h1 rfl

theorem eq_of_normalised_of_coeff_eq (x y : List Int) (hx : Normalised x) (hy : Normalised y)
    (h : ∀ n, coeff x n = coeff y n) : x = y :=
  eq_of_coeff_eq x y
    (le_antisymm (length_le_of_coeff_eq x y hx h)
      (length_le_of_coeff_eq y x hy (fun n => (h n).symm))) h

theorem inRange_coeff (p : Int) (hp : 0 < p) (l : List Int) (h : InRange p l) (n : Nat) :
    0 ≤ coeff l n ∧ coeff l n < p := by
  by_cases hn : n < l.length
  · exact h _ (coeff_mem_of_lt l n hn)
  · rw [coeff_of_length_le l n (by omega)]
    exact ⟨le_rfl, hp⟩

theorem inRange_of_coeff (p : Int) (l : List Int)
    (h : ∀ n, n < l.length → 0 ≤ coeff l n ∧ coeff l n < p) : InRange p l := by
  intro c hc
  obtain ⟨n, hn, rfl⟩ := List.getElem_of_mem hc
  rw [← coeff_of_lt l n hn]
  exact h n hn

theorem eq_of_dvd_sub_of_range (p x y : Int) (hx : 0 ≤ x ∧ x < p) (hy : 0 ≤ y ∧ y < p)
    (h : p ∣ x - y) : x = y := by
  have e : x % p = y % p :=
    Int.emod_eq_emod_iff_emod_sub_eq_zero.mpr (Int.emod_eq_zero_of_dvd h)
  rwa [Int.emod_eq_of_lt hx.1 hx.2, Int.emod_eq_of_lt hy.1 hy.2] at e

/-! ## Uniqueness of the remainder by a monic polynomial -/

/-- If `q * f` is divisible by `p` in every coefficient from `d` on, with `f`
monic of degree `d` and `q` of finite support, then every coefficient of `q`
is divisible by `p`. -/
theorem quotient_dvd (p : Int) (f : Nat → Int) (d : Nat) (hf1 : f d = 1)
    (hf0 : ∀ n, d < n → f n = 0) (q : Nat → Int) (N : Nat) (hN : ∀ k, N ≤ k → q k = 0)
    (hq : ∀ n, d ≤ n → p ∣ ∑ k in Finset.range (n + 1), q k * f (n - k)) :
    ∀ k, p ∣ q k := by
  have key : ∀ t k, N ≤ k + t → p ∣ q k := by
    intro t
    induction t with
    | zero =>
      intro k hk
      rw [hN k (by omega)]
      exact dvd_zero p
    | succ t ih =>
      intro k hk
      have hsum := hq (k + d) (by omega)
      rw [← Finset.add_sum_erase _ _ (Finset.mem_range.mpr (by omega : k < k + d + 1))] at hsum
      have hrest : p ∣ ∑ x in (Finset.range (k + d + 1)).erase k, q x * f (k + d - x) := by
        apply Finset.dvd_sum
        intro x hx
        have hxk : x ≠ k := (Finset.mem_erase.mp hx).1
        by_cases hlt : x < k
        · rw [hf0 (k + d - x) (by omega), mul_zero]
          exact dvd_zero p
        · exact Dvd.dvd.mul_right (ih x (by omega)) _
      have e : k + d - k = d := by omega
      rw [e, hf1, mul_one] at hsum
      exact (Int.dvd_add_left hrest).mp hsum
  intro k
  exact key N k (by omega)

theorem congruentMod_refl (p : Int) (f : Nat → Int) (A : List Int) : CongruentMod p f A A :=
  ⟨[], fun n => by rw [mul_coeff_nil]; simp⟩

/-- The remainder is unique: two polynomials of degree below `d` that are
both congruent to `A` modulo `p` and a monic `f` of degree `d` are congruent
modulo `p` coefficient by coefficient. -/
theorem remainder_unique_dvd (p : Int) (f : Nat → Int) (d : Nat) (hf1 : f d = 1)
    (hf0 : ∀ n, d < n → f n = 0) (A x y : List Int)
    (hx : ∀ n, d ≤ n → coeff x n = 0) (hy : ∀ n, d ≤ n → coeff y n = 0)
    (h1 : CongruentMod p f A x) (h2 : CongruentMod p f A y) :
    ∀ n, p ∣ coeff x n - coeff y n := by
  obtain ⟨q1, hq1⟩ := h1
  obtain ⟨q2, hq2⟩ := h2
  have hdiff : ∀ n, p ∣ coeff x n - coeff y n -
      ∑ k in Finset.range (n + 1), (coeff q2 k - coeff q1 k) * f (n - k) := by
    intro n
    have := dvd_sub (hq2 n) (hq1 n)
    unfold mul_coeff at this
    have e : coeff x n - coeff y n -
        ∑ k in Finset.range (n + 1), (coeff q2 k - coeff q1 k) * f (n - k) =
        coeff A n - coeff y n - ∑ k in Finset.range (n + 1), coeff q2 k * f (n - k) -
        (coeff A n - coeff x n - ∑ k in Finset.range (n + 1), coeff q1 k * f (n - k)) := by
      simp only [sub_mul, Finset.sum_sub_distrib]
      ring
    rw [e]
    exact this
  have hall := quotient_dvd p f d hf1 hf0 (fun k => coeff q2 k - coeff q1 k)
    (max q1.length q2.length)
    (fun k hk => by
      show coeff q2 k - coeff q1 k = 0
      rw [coeff_of_length_le q1 k (le_trans (le_max_left _ _) hk),
        coeff_of_length_le q2 k (le_trans (le_max_right _ _) hk)]
      rfl)
    (fun n hn => by
      have := hdiff n
      rw [hx n hn, hy n hn, sub_zero, zero_sub] at this
      exact (Int.dvd_neg).mp this)
  intro n
  have h3 : p ∣ ∑ k in Finset.range (n + 1), (coeff q2 k - coeff q1 k) * f (n - k) :=
    Finset.dvd_sum (fun k _ => Dvd.dvd.mul_right (hall k) _)
  have := dvd_add (hdiff n) h3
  simpa using this

/-- Uniqueness of the canonical remainder as a coefficient sequence. -/
theorem remainder_unique (p : Int) (hp : 0 < p) (f : Nat → Int) (d : Nat) (hf1 : f d = 1)
    (hf0 : ∀ n, d < n → f n = 0) (A x y : List Int)
    (hxl : x.length ≤ d) (hyl : y.length ≤ d) (hxr : InRange p x) (hyr : InRange p y)
    (h1 : CongruentMod p f A x) (h2 : CongruentMod p f A y) :
    ∀ n, coeff x n = coeff y n := by
  intro n
  exact eq_of_dvd_sub_of_range p _ _ (inRange_coeff p hp x hxr n) (inRange_coeff p hp y hyr n)
    (remainder_unique_dvd p f d hf1 hf0 A x y
      (fun m hm => coeff_of_length_le x m (by omega))
      (fun m hm => coeff_of_length_le y m (by omega)) h1 h2 n)

theorem FMPZ_VEC_NORM_congr (v w : List Int) (n : Nat)
    (h : ∀ m, m < n → coeff v m = coeff w m) : FMPZ_VEC_NORM v n = FMPZ_VEC_NORM w n := by
  induction n with
  | zero => rfl
  | succ n ih =>
    rw [FMPZ_VEC_NORM, FMPZ_VEC_NORM, h n (by omega), ih (fun m hm => h m (by omega))]

theorem coeff_append_left (l r : List Int) (m : Nat) (h : m < l.length) :
    coeff (l ++ r) m = coeff l m := by
  unfold coeff
  rw [List.getD_eq_getElem?_getD, List.getD_eq_getElem?_getD, List.getElem?_append_left h]

theorem coeff_concat_length (l : List Int) (x : Int) : coeff (l ++ [x]) l.length = x := by
  unfold coeff
  rw [List.getD_eq_getElem?_getD]
  simp

/-- The normalisation of the code removes the trailing zero coefficients. -/
theorem normalise_eq_rdropWhile (l : List Int) :
    _fmpz_poly_normalise l = l.rdropWhile (fun c => decide (c = 0)) := by
  induction l using List.reverseRecOn with
  | nil => rfl
  | append_singleton l x ih =>
    rw [List.rdropWhile_concat]
    unfold _fmpz_poly_normalise at ih ⊢
    rw [List.length_append, List.length_singleton, FMPZ_VEC_NORM, coeff_concat_length]
    by_cases hx : x = 0
    · have e : FMPZ_VEC_NORM (l ++ [x]) l.length = FMPZ_VEC_NORM l l.length :=
        FMPZ_VEC_NORM_congr _ _ _ (fun m hm => coeff_append_left l [x] m hm)
      simp only [hx, if_true, decide_True]
      rw [← ih]
      have e' : FMPZ_VEC_NORM (l ++ [0]) l.length = FMPZ_VEC_NORM l l.length := by
        rw [← hx]; exact e
      rw [e', List.take_append_of_le_length (FMPZ_VEC_NORM_le l l.length)]
    · simp only [hx, if_false, decide_False]
      rw [← List.length_singleton x, ← List.length_append, List.take_length]
      simp

theorem inRange_normalise (p : Int) (l : List Int) (h : InRange p l) :
    InRange p (_fmpz_poly_normalise l) := by
  intro c hc
  unfold _fmpz_poly_normalise at hc
  exact h c (List.mem_of_mem_take hc)

theorem length_normalise_le (l : List Int) : (_fmpz_poly_normalise l).length ≤ l.length := by
  rw [length_normalise]
  exact FMPZ_VEC_NORM_le l l.length

theorem inRange_scalar_mod (p : Int) (hp : 0 < p) (l : List Int) :
    InRange p (_fmpz_vec_scalar_mod_fmpz l l.length p) := by
  apply inRange_of_coeff
  intro n hn
  rw [length_scalar_mod] at hn
  rw [coeff_scalar_mod, if_pos hn]
  exact ⟨Int.emod_nonneg _ (by omega), Int.emod_lt_of_pos _ hp⟩

theorem scalar_mod_eq_map (p : Int) (l : List Int) :
    _fmpz_vec_scalar_mod_fmpz l l.length p = l.map (fun c => c % p) := by
  unfold _fmpz_vec_scalar_mod_fmpz fmpz_mod
  simp

/-- A congruence between concrete buffers follows from its finitely many
coefficients below a bound `N` beyond which every polynomial involved ends. -/
theorem congruentMod_of_bounded (p : Int) (m A B q : List Int) (N : Nat)
    (hA : A.length ≤ N) (hB : B.length ≤ N) (hq : q.length + m.length ≤ N + 1)
    (h : ∀ n, n < N → p ∣ coeff A n - coeff B n - mul_coeff q (coeff m) n) :
    CongruentMod p (coeff m) A B := by
  refine ⟨q, fun n => ?_⟩
  by_cases hn : n < N
  · exact h n hn
  · have hz : mul_coeff q (coeff m) n = 0 := by
      unfold mul_coeff
      apply Finset.sum_eq_zero
      intro k _
      by_cases hk : k < q.length
      · rw [coeff_of_length_le m (n - k) (by omega), mul_zero]
      · rw [coeff_of_length_le q k (by omega), zero_mul]
    rw [hz, coeff_of_length_le A n (by omega), coeff_of_length_le B n (by omega)]
    simp

theorem coeff_map_neg (q : List Int) (k : Nat) : coeff (q.map fun c => -c) k = -coeff q k := by
  by_cases hk : k < q.length
  · rw [coeff_of_lt _ _ (by simpa using hk), coeff_of_lt _ _ hk]
    simp
  · rw [coeff_of_length_le _ _ (by simp; omega), coeff_of_length_le _ _ (by omega)]
    rfl

theorem congruentMod_symm (p : Int) (f : Nat → Int) (A B : List Int)
    (h : CongruentMod p f A B) : CongruentMod p f B A := by
  obtain ⟨q, hq⟩ := h
  refine ⟨q.map fun c => -c, fun n => ?_⟩
  have e : coeff B n - coeff A n - mul_coeff (q.map fun c => -c) f n =
      -(coeff A n - coeff B n - mul_coeff q f n) := by
    unfold mul_coeff
    simp only [coeff_map_neg, neg_mul, Finset.sum_neg_distrib]
    ring
  rw [e]
  exact (Int.dvd_neg).mpr (hq n)

/-- What `_fq_reduce` leaves in the buffer on a well-formed sparse modulus and
a positive `p`: same length, nothing from position `d` on, residues in
`[0, p)`, and a polynomial congruent to the input modulo `p` and the modulus;
the same holds for its low `d` coefficients taken alone. -/
theorem fq_reduce_sparse_remainder (R a j : List Int) (len d : Nat) (p : Int) (hp : 0 < p)
    (h : SparseModulus a j len d) :
    ∃ R', _fq_reduce R a j len p = some R' ∧ R'.length = R.length ∧
      (∀ m, d ≤ m → coeff R' m = 0) ∧
      (∀ m, 0 ≤ coeff R' m ∧ coeff R' m < p) ∧
      CongruentMod p (sparse_modulus_coeff a j len) R R' ∧
      (∀ m, coeff (R'.take d) m = coeff R' m) ∧
      InRange p (R'.take d) ∧
      CongruentMod p (sparse_modulus_coeff a j len) R (R'.take d) := by
  obtain ⟨R', hR', hl, q, hhigh, hco⟩ := fq_reduce_sparse_spec R a j len d p h
  have hz : ∀ m, d ≤ m → coeff R' m = 0 := by
    intro m hm
    rw [hco m, hhigh m hm]
    rfl
  have hr : ∀ m, 0 ≤ coeff R' m ∧ coeff R' m < p := by
    intro m
    rw [hco m]
    exact ⟨Int.emod_nonneg _ (by omega), Int.emod_lt_of_pos _ hp⟩
  have hc : ∀ n, p ∣ coeff R n - coeff R' n - mul_coeff q (sparse_modulus_coeff a j len) n := by
    intro n
    have e : coeff R n - coeff R' n - mul_coeff q (sparse_modulus_coeff a j len) n =
        (coeff R n - mul_coeff q (sparse_modulus_coeff a j len) n) - coeff R' n := by ring
    rw [e]
    exact Int.dvd_sub_of_emod_eq (hco n).symm
  have ht : ∀ m, coeff (R'.take d) m = coeff R' m := by
    intro m
    rw [coeff_take]
    by_cases hm : m < d
    · rw [if_pos hm]
    · rw [if_neg hm, hz m (by omega)]
  refine ⟨R', hR', hl, hz, hr, ⟨q, hc⟩, ht, ?_, ⟨q, fun n => ?_⟩⟩
  · apply inRange_of_coeff
    intro n _
    rw [ht n]
    exact hr n
  · rw [ht n]
    exact hc n

/-- The external remainder is determined by its specification. -/
theorem newtonRemainder_unique (p : Int) (hp : 0 < p) (modulus A r1 r2 : List Int)
    (hm : 0 < modulus.length) (hmonic : coeff modulus (modulus.length - 1) = 1)
    (h1 : NewtonRemainder p modulus A r1) (h2 : NewtonRemainder p modulus A r2) : r1 = r2 := by
  obtain ⟨hl1, hr1, hc1⟩ := h1
  obtain ⟨hl2, hr2, hc2⟩ := h2
  apply eq_of_coeff_eq r1 r2 (by omega)
  exact remainder_unique p hp (coeff modulus) (modulus.length - 1) hmonic
    (fun n hn => coeff_of_length_le _ n (by omega)) A r1 r2 (by omega) (by omega)
    hr1 hr2 hc1 hc2

theorem sparse_modulus_coeff_eq_dense (a j modulus : List Int) (len d : Nat)
    (hs : SparseModulus a j len d) (hm : modulus.length = d + 1)
    (henc : ∀ n, n ≤ d → coeff modulus n = sparse_modulus_coeff a j len n) :
    sparse_modulus_coeff a j len = coeff modulus := by
  funext n
  by_cases hn : n ≤ d
  · exact (henc n hn).symm
  · rw [sparse_modulus_coeff_above a j len d hs n (by omega),
      coeff_of_length_le modulus n (by omega)]

theorem length_zero_of_normalised (l : List Int) (h : Normalised l)
    (hz : ∀ c ∈ l, c = 0) : l.length = 0 := by
  rw [normalised_iff] at h
  by_contra hne
  exact h (by omega) (hz _ (coeff_mem_of_lt l _ (by omega)))

/-! ## The claims -/

/-- C1. For a context with modulus of length `d + 1` and a prime (here: any
positive) `p`, and for every integer coefficient sequence `rop`, whatever its
length and the sign or size of its coefficients, `fq_reduce` leaves a
canonical element: length at most `d`, every coefficient in `[0, p)`, no
trailing zero (so length `0` when every coefficient is zero). The external Newton division is assumed to return the
remainder with `d` coefficients in `[0, p)` when it is called. -/
theorem fq_reduce_canonical (divrem : List Int → List Int → List Int → Int → List Int)
    (ctx : fq_ctx_struct) (d : Nat) (rop : List Int)
    (hp : 0 < ctx.p) (hm : ctx.modulus.length = d + 1)
    (hnewton : ctx.modulus.length ≤ rop.length →
      NewtonRemainder ctx.p ctx.modulus rop (divrem rop ctx.modulus ctx.inv ctx.p)) :
    (fq_reduce divrem rop ctx).length ≤ d ∧
      (∀ c ∈ fq_reduce divrem rop ctx, 0 ≤ c ∧ c < ctx.p) ∧
      (fq_reduce divrem rop ctx).getLast? ≠ some 0 ∧
      ((∀ c ∈ fq_reduce divrem rop ctx, c = 0) → (fq_reduce divrem rop ctx).length = 0) := by
  unfold fq_reduce fq_ctx_prime
  by_cases h : rop.length < ctx.modulus.length
  · rw [if_pos h]
    refine ⟨?_, ?_, normalised_normalise _, length_zero_of_normalised _ (normalised_normalise _)⟩
    · have := length_normalise_le (_fmpz_vec_scalar_mod_fmpz rop rop.length ctx.p)
      rw [length_scalar_mod] at this
      omega
    · exact inRange_normalise _ _ (inRange_scalar_mod ctx.p hp rop)
  · rw [if_neg h]
    dsimp only
    obtain ⟨hl, hr, _⟩ := hnewton (by omega)
    refine ⟨?_, ?_, normalised_normalise _, length_zero_of_normalised _ (normalised_normalise _)⟩
    · have := length_normalise_le (divrem rop ctx.modulus ctx.inv ctx.p)
      omega
    · exact inRange_normalise _ _ hr

/-- Witness of C1: the long branch in the field with `5^2` elements. -/
theorem fq_reduce_canonical_witness :
    (fq_reduce (fun _ _ _ _ => [4, 2]) [1, 2, 1] ctx_gf25).length ≤ 2 ∧
      (∀ c ∈ fq_reduce (fun _ _ _ _ => [4, 2]) [1, 2, 1] ctx_gf25, 0 ≤ c ∧ c < ctx_gf25.p) ∧
      (fq_reduce (fun _ _ _ _ => [4, 2]) [1, 2, 1] ctx_gf25).getLast? ≠ some 0 ∧
      ((∀ c ∈ fq_reduce (fun _ _ _ _ => [4, 2]) [1, 2, 1] ctx_gf25, c = 0) →
        (fq_reduce (fun _ _ _ _ => [4, 2]) [1, 2, 1] ctx_gf25).length = 0) :=
  fq_reduce_canonical (fun _ _ _ _ => [4, 2]) ctx_gf25 2 [1, 2, 1] (by decide) rfl
    (fun _ => ⟨rfl, by decide,
      congruentMod_of_bounded 5 [2, 0, 1] [1, 2, 1] [4, 2] [1] 3
        (by decide) (by decide) (by decide) (by decide)⟩)

/-- C2. For a positive (in particular prime) `p`, sparse terms `(a, j, len)`
with leading exponent `d = j[len - 1]` and the other exponents in `[0, d)` in
any order, and every integer buffer `R`: `_fq_reduce` returns a buffer whose
polynomial is congruent to that of `R` modulo `p` and modulo
`f(x) = x^d + sum_{k < len - 1} a[k] x^{j[k]}`, and its low `d` coefficients
are the remainder of `R` by `f` over `Z/p`: at most `d` residues in `[0, p)`
congruent to `R`, which every other such sequence agrees with. -/
theorem fq_reduce_sparse_congruent (R a j : List Int) (len d : Nat) (p : Int) (hp : 0 < p)
    (h : SparseModulus a j len d) :
    ∃ R', _fq_reduce R a j len p = some R' ∧
      CongruentMod p (sparse_modulus_coeff a j len) R' R ∧
      (R'.take d).length ≤ d ∧ (∀ c ∈ R'.take d, 0 ≤ c ∧ c < p) ∧
      CongruentMod p (sparse_modulus_coeff a j len) R (R'.take d) ∧
      ∀ r : List Int, r.length ≤ d → (∀ c ∈ r, 0 ≤ c ∧ c < p) →
        CongruentMod p (sparse_modulus_coeff a j len) R r →
        ∀ n, coeff r n = coeff (R'.take d) n := by
  obtain ⟨R', hR', _, _, _, hc, _, hr, hct⟩ := fq_reduce_sparse_remainder R a j len d p hp h
  refine ⟨R', hR', congruentMod_symm _ _ _ _ hc, ?_, hr, hct, ?_⟩
  · rw [List.length_take]; exact Nat.min_le_left _ _
  · intro r hrl hrr hrc
    exact remainder_unique p hp (sparse_modulus_coeff a j len) d
      (sparse_modulus_coeff_leading a j len d h) (sparse_modulus_coeff_above a j len d h)
      R r (R'.take d) hrl (by rw [List.length_take]; exact Nat.min_le_left _ _) hrr hr hrc hct

/-- Witness of C2: `x^2 + 2x + 1` modulo `5` and `x^2 + 2`. -/
theorem fq_reduce_sparse_congruent_witness :
    ∃ R', _fq_reduce [1, 2, 1] [2, 1] [0, 2] 2 5 = some R' ∧
      CongruentMod 5 (sparse_modulus_coeff [2, 1] [0, 2] 2) R' [1, 2, 1] ∧
      (R'.take 2).length ≤ 2 ∧ (∀ c ∈ R'.take 2, 0 ≤ c ∧ c < 5) ∧
      CongruentMod 5 (sparse_modulus_coeff [2, 1] [0, 2] 2) [1, 2, 1] (R'.take 2) ∧
      ∀ r : List Int, r.length ≤ 2 → (∀ c ∈ r, 0 ≤ c ∧ c < 5) →
        CongruentMod 5 (sparse_modulus_coeff [2, 1] [0, 2] 2) [1, 2, 1] r →
        ∀ n, coeff r n = coeff (R'.take 2) n :=
  fq_reduce_sparse_congruent [1, 2, 1] [2, 1] [0, 2] 2 2 5 (by decide) (by decide)

/-- C3. Under the same preconditions, `_fq_reduce` returns a buffer (of the
length `lenR` of `R`) in which every coefficient at a position `i` with
`d <= i < lenR` is exactly `0` and every coefficient at a position
`i < min(d, lenR)` lies in `[0, p)`. -/
theorem fq_reduce_sparse_range (R a j : List Int) (len d : Nat) (p : Int) (hp : 0 < p)
    (h : SparseModulus a j len d) :
    ∃ R', _fq_reduce R a j len p = some R' ∧ R'.length = R.length ∧
      (∀ i, d ≤ i → i < R.length → R'[i]? = some 0) ∧
      ∀ i, i < min d R.length → ∃ c, R'[i]? = some c ∧ 0 ≤ c ∧ c < p := by
  obtain ⟨R', hR', hl, hz, hr, _⟩ := fq_reduce_sparse_remainder R a j len d p hp h
  refine ⟨R', hR', hl, ?_, ?_⟩
  · intro i hdi hi
    rw [List.getElem?_eq_getElem (by omega), ← coeff_of_lt R' i (by omega), hz i hdi]
  · intro i hi
    have hi' : i < R'.length := by
      rw [hl]; exact lt_of_lt_of_le hi (Nat.min_le_right _ _)
    refine ⟨coeff R' i, ?_, hr i⟩
    rw [List.getElem?_eq_getElem hi', coeff_of_lt R' i hi']

/-- Witness of C3: a buffer with a negative and a large coefficient, modulo
`5` and `x^2 + 2`. -/
theorem fq_reduce_sparse_range_witness :
    ∃ R', _fq_reduce [-1, 12, 1, 7] [2, 1] [0, 2] 2 5 = some R' ∧
      R'.length = ([-1, 12, 1, 7] : List Int).length ∧
      (∀ i, 2 ≤ i → i < ([-1, 12, 1, 7] : List Int).length → R'[i]? = some 0) ∧
      ∀ i, i < min 2 ([-1, 12, 1, 7] : List Int).length → ∃ c, R'[i]? = some c ∧ 0 ≤ c ∧ c < 5 :=
  fq_reduce_sparse_range [-1, 12, 1, 7] [2, 1] [0, 2] 2 2 5 (by decide) (by decide)

/-- C4. Both reduction routines agree: when the sparse terms and the dense
modulus of the context encode the same monic polynomial of degree `d`, `p` is
positive (in particular prime) and the external Newton division returns the
remainder, then for every buffer with more than `d` coefficients the low `d`
coefficients left by `_fq_reduce`, with the trailing zeros removed, are the
result of `fq_reduce` on the same input. -/
theorem fq_reduce_sparse_eq_dense (divrem : List Int → List Int → List Int → Int → List Int)
    (ctx : fq_ctx_struct) (d : Nat) (rop : List Int) (hp : 0 < ctx.p)
    (hs : SparseModulus ctx.a ctx.j ctx.len d) (hm : ctx.modulus.length = d + 1)
    (henc : ∀ n, n ≤ d → coeff ctx.modulus n = sparse_modulus_coeff ctx.a ctx.j ctx.len n)
    (hL : d < rop.length)
    (hnewton : NewtonRemainder ctx.p ctx.modulus rop (divrem rop ctx.modulus ctx.inv ctx.p)) :
    ∃ R', _fq_reduce rop ctx.a ctx.j ctx.len ctx.p = some R' ∧
      (R'.take d).rdropWhile (fun c => decide (c = 0)) = fq_reduce divrem rop ctx := by
  obtain ⟨R', hR', hl, _, _, _, _, hr, hct⟩ :=
    fq_reduce_sparse_remainder rop ctx.a ctx.j ctx.len d ctx.p hp hs
  refine ⟨R', hR', ?_⟩
  rw [sparse_modulus_coeff_eq_dense ctx.a ctx.j ctx.modulus ctx.len d hs hm henc] at hct
  have hmonic : coeff ctx.modulus (ctx.modulus.length - 1) = 1 := by
    have e : ctx.modulus.length - 1 = d := by omega
    rw [e, henc d le_rfl]
    exact sparse_modulus_coeff_leading ctx.a ctx.j ctx.len d hs
  have hlen : (R'.take d).length = ctx.modulus.length - 1 := by
    rw [List.length_take, hl]; omega
  have e : R'.take d = divrem rop ctx.modulus ctx.inv ctx.p :=
    newtonRemainder_unique ctx.p hp ctx.modulus rop _ _ (by omega) hmonic
      ⟨hlen, hr, hct⟩ hnewton
  unfold fq_reduce fq_ctx_prime
  rw [if_neg (by omega), ← normalise_eq_rdropWhile, e]

/-- Witness of C4: `x^2 + 2x + 1` in the field with `5^2` elements. -/
theorem fq_reduce_sparse_eq_dense_witness :
    ∃ R', _fq_reduce [1, 2, 1] ctx_gf25.a ctx_gf25.j ctx_gf25.len ctx_gf25.p = some R' ∧
      (R'.take 2).rdropWhile (fun c => decide (c = 0)) =
        fq_reduce (fun _ _ _ _ => [4, 2]) [1, 2, 1] ctx_gf25 :=
  fq_reduce_sparse_eq_dense (fun _ _ _ _ => [4, 2]) ctx_gf25 2 [1, 2, 1] (by decide)
    (by decide) rfl (by decide) (by decide)
    ⟨rfl, by decide,
      congruentMod_of_bounded 5 [2, 0, 1] [1, 2, 1] [4, 2] [1] 3
        (by decide) (by decide) (by decide) (by decide)⟩

/-- C5. Short-input branch: when `rop` has fewer coefficients than the modulus,
the result of `fq_reduce` does not depend on the external division; it is the
input with every coefficient `c` replaced by `c mod p`, the residue in
`[0, p)` congruent to `c`, with the trailing zero coefficients removed. -/
theorem fq_reduce_short_input (divrem : List Int → List Int → List Int → Int → List Int)
    (ctx : fq_ctx_struct) (rop : List Int) (hp : 0 < ctx.p)
    (h : rop.length < ctx.modulus.length) :
    fq_reduce divrem rop ctx =
        (rop.map (fun c => c % ctx.p)).rdropWhile (fun c => decide (c = 0)) ∧
      ∀ c ∈ rop, 0 ≤ c % ctx.p ∧ c % ctx.p < ctx.p ∧ ctx.p ∣ c - c % ctx.p := by
  constructor
  · unfold fq_reduce fq_ctx_prime
    rw [if_pos h, normalise_eq_rdropWhile, scalar_mod_eq_map]
  · intro c _
    exact ⟨Int.emod_nonneg _ (by omega), Int.emod_lt_of_pos _ hp,
      Int.dvd_sub_of_emod_eq rfl⟩

/-- Witness of C5: a short input with negative and large coefficients. -/
theorem fq_reduce_short_input_witness :
    fq_reduce (fun _ _ _ _ => []) [-1, 10] ctx_gf25 =
        ([-1, 10].map (fun c => c % ctx_gf25.p)).rdropWhile (fun c => decide (c = 0)) ∧
      ∀ c ∈ [-1, 10], 0 ≤ c % ctx_gf25.p ∧ c % ctx_gf25.p < ctx_gf25.p ∧
        ctx_gf25.p ∣ c - c % ctx_gf25.p :=
  fq_reduce_short_input (fun _ _ _ _ => []) ctx_gf25 [-1, 10] (by decide) (by decide)

/-- C6. Reduction idempotence: `fq_reduce` leaves an already canonical element
(at most `d` coefficients, each in `[0, p)`, no trailing zero) unchanged. -/
theorem fq_reduce_idempotent (divrem : List Int → List Int → List Int → Int → List Int)
    (ctx : fq_ctx_struct) (d : Nat) (x : List Int) (hm : ctx.modulus.length = d + 1)
    (hl : x.length ≤ d) (hr : ∀ c ∈ x, 0 ≤ c ∧ c < ctx.p) (hn : x.getLast? ≠ some 0) :
    fq_reduce divrem x ctx = x := by
  unfold fq_reduce fq_ctx_prime
  rw [if_pos (by omega)]
  have e : _fmpz_vec_scalar_mod_fmpz x x.length ctx.p = x := by
    rw [scalar_mod_eq_map]
    conv_rhs => rw [← List.map_id x]
    apply List.map_congr_left
    intro c hc
    exact Int.emod_eq_of_lt (hr c hc).1 (hr c hc).2
  rw [e]
  exact normalise_of_normalised x hn

/-- Witness of C6: the element `2x + 4` of the field with `5^2` elements. -/
theorem fq_reduce_idempotent_witness :
    fq_reduce (fun _ _ _ _ => []) [4, 2] ctx_gf25 = [4, 2] :=
  fq_reduce_idempotent (fun _ _ _ _ => []) ctx_gf25 2 [4, 2] rfl (by decide) (by decide)
    (by decide)

/-- C7. On canonical elements `x`, `y` of a context with monic modulus `f` of
degree `d`, `fq_equal` holds exactly when `x` and `y` are congruent modulo `p`
and `f`; and the canonical representative of a residue class is unique: two
canonical elements congruent to the same polynomial `A` are the same
coefficient sequence. -/
theorem fq_equal_iff_congruent (ctx : fq_ctx_struct) (d : Nat) (x y : List Int)
    (hp : 0 < ctx.p) (hm : ctx.modulus.length = d + 1) (hmonic : coeff ctx.modulus d = 1)
    (hx : Canonical ctx.p d x) (hy : Canonical ctx.p d y) :
    (fq_equal x y = true ↔ CongruentMod ctx.p (coeff ctx.modulus) x y) ∧
      ∀ A : List Int, CongruentMod ctx.p (coeff ctx.modulus) A x →
        CongruentMod ctx.p (coeff ctx.modulus) A y → x = y := by
  have hf0 : ∀ n, d < n → coeff ctx.modulus n = 0 :=
    fun n hn => coeff_of_length_le _ n (by omega)
  have uniq : ∀ A : List Int, CongruentMod ctx.p (coeff ctx.modulus) A x →
      CongruentMod ctx.p (coeff ctx.modulus) A y → x = y := by
    intro A h1 h2
    exact eq_of_normalised_of_coeff_eq x y hx.2.2 hy.2.2
      (remainder_unique ctx.p hp (coeff ctx.modulus) d hmonic hf0 A x y hx.1 hy.1
        hx.2.1 hy.2.1 h1 h2)
  refine ⟨⟨?_, ?_⟩, uniq⟩
  · intro h
    have e : x = y := of_decide_eq_true h
    rw [e]
    exact congruentMod_refl _ _ y
  · intro h
    have e : x = y := uniq x (congruentMod_refl _ _ x) h
    exact decide_eq_true e

/-- Witness of C7: the elements `2x + 4` and `x` of the field with `5^2`
elements. -/
theorem fq_equal_iff_congruent_witness :
    (fq_equal [4, 2] [0, 1] = true ↔
        CongruentMod ctx_gf25.p (coeff ctx_gf25.modulus) [4, 2] [0, 1]) ∧
      ∀ A : List Int, CongruentMod ctx_gf25.p (coeff ctx_gf25.modulus) A [4, 2] →
        CongruentMod ctx_gf25.p (coeff ctx_gf25.modulus) A [0, 1] →
          ([4, 2] : List Int) = [0, 1] :=
  fq_equal_iff_congruent ctx_gf25 2 [4, 2] [0, 1] (by decide) rfl rfl (by decide) (by decide)

/-- C8, as the claim states it, fails: in the field with `2^3` elements
(`p = 2`, modulus `x^3 + x + 1`) the buffer `[0,0,1,0,1]` of `x^4 + x^2` is
reduced by `_fq_reduce` to `[0,1,0,0,0]`, whose low three coefficients are not
`[1,1,1]`; and `fq_reduce`, with the external division returning the
remainder `[0,1,0]`, does not give `[1,1,1]` either. -/
theorem gf8_square_reduce_ne :
    _fq_reduce [0, 0, 1, 0, 1] ctx_gf8.a ctx_gf8.j ctx_gf8.len ctx_gf8.p
        = some [0, 1, 0, 0, 0] ∧
      ([0, 1, 0, 0, 0] : List Int).take 3 ≠ [1, 1, 1] ∧
      NewtonRemainder ctx_gf8.p ctx_gf8.modulus [0, 0, 1, 0, 1] [0, 1, 0] ∧
      fq_reduce (fun _ _ _ _ => [0, 1, 0]) [0, 0, 1, 0, 1] ctx_gf8 ≠ [1, 1, 1] :=
  ⟨by decide, by decide,
    ⟨rfl, by decide,
      congruentMod_of_bounded 2 [1, 1, 0, 1] [0, 0, 1, 0, 1] [0, 1, 0] [0, 1] 5
        (by decide) (by decide) (by decide) (by decide)⟩,
    by decide⟩

/-- C8, amended. In the field with `2^3` elements (`p = 2`, modulus
`x^3 + x + 1`, sparse `a = [1,1,1]`, `j = [0,1,3]`), reducing `x^4 + x^2`
(buffer `[0,0,1,0,1]`) yields `x`: `_fq_reduce` leaves `[0,1,0,0,0]`, whose low
three coefficients without trailing zeros are `[0,1]`, and `fq_reduce` returns
`[0,1]` whenever the external division returns the remainder. -/
theorem gf8_square_reduce (divrem : List Int → List Int → List Int → Int → List Int)
    (hnewton : NewtonRemainder ctx_gf8.p ctx_gf8.modulus [0, 0, 1, 0, 1]
      (divrem [0, 0, 1, 0, 1] ctx_gf8.modulus ctx_gf8.inv ctx_gf8.p)) :
    _fq_reduce [0, 0, 1, 0, 1] ctx_gf8.a ctx_gf8.j ctx_gf8.len ctx_gf8.p
        = some [0, 1, 0, 0, 0] ∧
      (([0, 1, 0, 0, 0] : List Int).take 3).rdropWhile (fun c => decide (c = 0)) = [0, 1] ∧
      fq_reduce divrem [0, 0, 1, 0, 1] ctx_gf8 = [0, 1] := by
  refine ⟨by decide, by decide, ?_⟩
  have hr : NewtonRemainder ctx_gf8.p ctx_gf8.modulus [0, 0, 1, 0, 1] [0, 1, 0] :=
    ⟨rfl, by decide,
      congruentMod_of_bounded 2 [1, 1, 0, 1] [0, 0, 1, 0, 1] [0, 1, 0] [0, 1] 5
        (by decide) (by decide) (by decide) (by decide)⟩
  have e := newtonRemainder_unique ctx_gf8.p (by decide) ctx_gf8.modulus [0, 0, 1, 0, 1] _ _
    (by decide) (by decide) hnewton hr
  unfold fq_reduce fq_ctx_prime
  rw [if_neg (by decide)]
  dsimp only
  rw [e]
  decide

/-- Witness of the amended C8, with an external division that returns the
remainder `x`. -/
theorem gf8_square_reduce_witness :
    _fq_reduce [0, 0, 1, 0, 1] ctx_gf8.a ctx_gf8.j ctx_gf8.len ctx_gf8.p
        = some [0, 1, 0, 0, 0] ∧
      (([0, 1, 0, 0, 0] : List Int).take 3).rdropWhile (fun c => decide (c = 0)) = [0, 1] ∧
      fq_reduce (fun _ _ _ _ => [0, 1, 0]) [0, 0, 1, 0, 1] ctx_gf8 = [0, 1] :=
  gf8_square_reduce (fun _ _ _ _ => [0, 1, 0])
    ⟨rfl, by decide,
      congruentMod_of_bounded 2 [1, 1, 0, 1] [0, 0, 1, 0, 1] [0, 1, 0] [0, 1] 5
        (by decide) (by decide) (by decide) (by decide)⟩

/-- C9. In the field with `5^2` elements (`p = 5`, modulus `x^2 + 2`, sparse
`a = [2,1]`, `j = [0,2]`), reducing `x^2 + 2x + 1` (buffer `[1,2,1]`) yields
`2x + 4`, the remainder of the manual reduction: `_fq_reduce` leaves
`[4,2,0]`, whose low two coefficients are `[4,2]`, and `fq_reduce` returns
`[4,2]` whenever the external division returns the remainder. -/
theorem gf25_square_reduce (divrem : List Int → List Int → List Int → Int → List Int)
    (hnewton : NewtonRemainder ctx_gf25.p ctx_gf25.modulus [1, 2, 1]
      (divrem [1, 2, 1] ctx_gf25.modulus ctx_gf25.inv ctx_gf25.p)) :
    _fq_reduce [1, 2, 1] ctx_gf25.a ctx_gf25.j ctx_gf25.len ctx_gf25.p = some [4, 2, 0] ∧
      ([4, 2, 0] : List Int).take 2 = [4, 2] ∧
      NewtonRemainder ctx_gf25.p ctx_gf25.modulus [1, 2, 1] [4, 2] ∧
      fq_reduce divrem [1, 2, 1] ctx_gf25 = [4, 2] := by
  have hr : NewtonRemainder ctx_gf25.p ctx_gf25.modulus [1, 2, 1] [4, 2] :=
    ⟨rfl, by decide,
      congruentMod_of_bounded 5 [2, 0, 1] [1, 2, 1] [4, 2] [1] 3
        (by decide) (by decide) (by decide) (by decide)⟩
  refine ⟨by decide, by decide, hr, ?_⟩
  have e := newtonRemainder_unique ctx_gf25.p (by decide) ctx_gf25.modulus [1, 2, 1] _ _
    (by decide) (by decide) hnewton hr
  unfold fq_reduce fq_ctx_prime
  rw [if_neg (by decide)]
  dsimp only
  rw [e]
  decide

/-- Witness of C9, with an external division that returns the remainder
`2x + 4`. -/
theorem gf25_square_reduce_witness :
    _fq_reduce [1, 2, 1] ctx_gf25.a ctx_gf25.j ctx_gf25.len ctx_gf25.p = some [4, 2, 0] ∧
      ([4, 2, 0] : List Int).take 2 = [4, 2] ∧
      NewtonRemainder ctx_gf25.p ctx_gf25.modulus [1, 2, 1] [4, 2] ∧
      fq_reduce (fun _ _ _ _ => [4, 2]) [1, 2, 1] ctx_gf25 = [4, 2] :=
  gf25_square_reduce (fun _ _ _ _ => [4, 2])
    ⟨rfl, by decide,
      congruentMod_of_bounded 5 [2, 0, 1] [1, 2, 1] [4, 2] [1] 3
        (by decide) (by decide) (by decide) (by decide)⟩

/-- C10. For every context whose modulus has at least one coefficient (and a
length that a `long` holds), `fq_ctx_degree` returns `d`, the length of the
modulus coefficient sequence minus one, and `fq_ctx_order` sets its output to
exactly `p^d`. -/
theorem fq_ctx_order_eq (ctx : fq_ctx_struct) (h1 : 1 ≤ ctx.modulus.length)
    (h2 : ctx.modulus.length ≤ 2 ^ 63) :
    fq_ctx_degree ctx = (ctx.modulus.length : Int) - 1 ∧
      fq_ctx_degree ctx = ((ctx.modulus.length - 1 : Nat) : Int) ∧
      fq_ctx_order ctx = ctx.p ^ (ctx.modulus.length - 1) := by
  have e : ulong_of_long ((ctx.modulus.length : Int) - 1) = ctx.modulus.length - 1 := by
    unfold ulong_of_long FLINT_BITS
    rw [Int.emod_eq_of_lt (by omega) (by omega)]
    omega
  refine ⟨rfl, ?_, ?_⟩
  · unfold fq_ctx_degree; omega
  · unfold fq_ctx_order fq_ctx_degree fq_ctx_prime fmpz_pow_ui
    dsimp only
    rw [e]

/-- Witness of C10: the field with `5^2` elements has degree `2` and order
`5^2`. -/
theorem fq_ctx_order_eq_witness :
    fq_ctx_degree ctx_gf25 = (ctx_gf25.modulus.length : Int) - 1 ∧
      fq_ctx_degree ctx_gf25 = ((ctx_gf25.modulus.length - 1 : Nat) : Int) ∧
      fq_ctx_order ctx_gf25 = ctx_gf25.p ^ (ctx_gf25.modulus.length - 1) :=
  fq_ctx_order_eq ctx_gf25 (by decide) (by decide)

/-! ## Scalar conversion and the generator -/

theorem fq_set_fmpz_eq (rop : List Int) (x : Int) (ctx : fq_ctx_struct) :
    fq_set_fmpz rop x ctx = if x % ctx.p = 0 then [] else [x % ctx.p] := by
  unfold fq_set_fmpz fmpz_poly_set_coeff_fmpz fmpz_poly_zero fmpz_mod fq_ctx_prime
    _fmpz_poly_normalise
  by_cases h : x % ctx.p = 0
  · simp [h, FMPZ_VEC_NORM, coeff]
  · simp [h, FMPZ_VEC_NORM, coeff]

/-- C11. Scalar conversion: in a context with positive (in particular prime)
`p` and degree `d >= 1`, for every integer `x`, negative ones included,
`fq_set_fmpz` gives the canonical constant polynomial of the non-negative
residue of `x`: the sequence `[c]` of length `1` with `c` in `[1, p)` and
`c = x` modulo `p` when `p` does not divide `x`, and the sequence of length
`0`, for which `fq_is_zero` holds, when `p` divides `x`; and `fq_set_ui` gives
for every unsigned `n` the same element as `fq_set_fmpz`. -/
theorem fq_set_scalar (ctx : fq_ctx_struct) (d : Nat) (rop rop2 : List Int) (x : Int)
    (n : Nat) (hp : 0 < ctx.p) (hd : 1 ≤ d) :
    (¬ ctx.p ∣ x → ∃ c, fq_set_fmpz rop x ctx = [c] ∧ 1 ≤ c ∧ c < ctx.p ∧ ctx.p ∣ x - c) ∧
      (ctx.p ∣ x → fq_set_fmpz rop x ctx = [] ∧
        fq_is_zero (fq_set_fmpz rop x ctx) ctx = true) ∧
      (fq_set_fmpz rop x ctx).length ≤ d ∧
      (∀ c ∈ fq_set_fmpz rop x ctx, 0 ≤ c ∧ c < ctx.p) ∧
      (fq_set_fmpz rop x ctx).getLast? ≠ some 0 ∧
      fq_set_ui rop2 n ctx = fq_set_fmpz rop (n : Int) ctx := by
  have hnn : 0 ≤ x % ctx.p := Int.emod_nonneg _ (by omega)
  have hlt : x % ctx.p < ctx.p := Int.emod_lt_of_pos _ hp
  have hui : fq_set_ui rop2 n ctx = fq_set_fmpz rop (n : Int) ctx := by
    rw [fq_set_fmpz_eq]
    unfold fq_set_ui fmpz_init_set_ui
    exact fq_set_fmpz_eq rop2 (n : Int) ctx
  rw [fq_set_fmpz_eq]
  by_cases h : x % ctx.p = 0
  · have hdvd : ctx.p ∣ x := Int.dvd_of_emod_eq_zero h
    rw [if_pos h]
    refine ⟨fun hn => absurd hdvd hn, fun _ => ⟨rfl, rfl⟩, by simp, by simp, by simp, ?_⟩
    rw [hui, fq_set_fmpz_eq]
  · have hndvd : ¬ ctx.p ∣ x := fun hd => h (Int.emod_eq_zero_of_dvd hd)
    rw [if_neg h]
    refine ⟨fun _ => ⟨x % ctx.p, rfl, by omega, hlt, Int.dvd_sub_of_emod_eq rfl⟩,
      fun hd => absurd hd hndvd, by simpa using hd, ?_, ?_, ?_⟩
    · intro c hc
      rw [List.mem_singleton] at hc
      rw [hc]
      exact ⟨hnn, hlt⟩
    · simpa using h
    · rw [hui, fq_set_fmpz_eq]

/-- Witness of C11: the scalars `-3` and `13` in the field with `5^2`
elements. -/
theorem fq_set_scalar_witness :
    (¬ ctx_gf25.p ∣ (-3 : Int) →
        ∃ c, fq_set_fmpz [7, 7] (-3) ctx_gf25 = [c] ∧ 1 ≤ c ∧ c < ctx_gf25.p ∧
          ctx_gf25.p ∣ (-3 : Int) - c) ∧
      (ctx_gf25.p ∣ (-3 : Int) → fq_set_fmpz [7, 7] (-3) ctx_gf25 = [] ∧
        fq_is_zero (fq_set_fmpz [7, 7] (-3) ctx_gf25) ctx_gf25 = true) ∧
      (fq_set_fmpz [7, 7] (-3) ctx_gf25).length ≤ 2 ∧
      (∀ c ∈ fq_set_fmpz [7, 7] (-3) ctx_gf25, 0 ≤ c ∧ c < ctx_gf25.p) ∧
      (fq_set_fmpz [7, 7] (-3) ctx_gf25).getLast? ≠ some 0 ∧
      fq_set_ui [] 13 ctx_gf25 = fq_set_fmpz [7, 7] ((13 : Nat) : Int) ctx_gf25 :=
  fq_set_scalar ctx_gf25 2 [7, 7] [] (-3) 13 (by decide) (by decide)

/-- C12, at the failing input. `fq_gen` ignores its context and always leaves
the polynomial `x`, the sequence `[0, 1]` of length `2`; in the valid context
of degree `1` over `p = 5` with modulus `x + 2` this element is longer than
the degree, so it is not canonical. -/
theorem fq_gen_degree_one :
    (∀ (rop : List Int) (ctx : fq_ctx_struct), fq_gen rop ctx = [0, 1]) ∧
      Nat.Prime ctx_gf5.p.toNat ∧ ctx_gf5.modulus.length = 1 + 1 ∧
      coeff ctx_gf5.modulus 1 = 1 ∧
      SparseModulus ctx_gf5.a ctx_gf5.j ctx_gf5.len 1 ∧
      fq_ctx_degree ctx_gf5 = 1 ∧
      fq_gen [] ctx_gf5 = [0, 1] ∧
      ¬ ((fq_gen [] ctx_gf5).length : Int) ≤ fq_ctx_degree ctx_gf5 := by
  have hprime : Nat.Prime ctx_gf5.p.toNat := by
    show Nat.Prime 5
    norm_num
  exact ⟨fun _ _ => rfl, hprime, rfl, by decide, by decide, by decide, by decide, by decide⟩

/-! ## Algebra of the sparse reduction -/

/-- Over the integers, a multiple `q * f` of a monic `f` of degree `d` without
coefficients from `d` on has `q = 0`. -/
theorem quotient_zero_of_high (f : Nat → Int) (d : Nat) (hf1 : f d = 1)
    (hf0 : ∀ n, d < n → f n = 0) (q : Nat → Int) (N : Nat) (hN : ∀ k, N ≤ k → q k = 0)
    (hq : ∀ n, d ≤ n → ∑ k in Finset.range (n + 1), q k * f (n - k) = 0) :
    ∀ k, q k = 0 := by
  intro k
  have := quotient_dvd 0 f d hf1 hf0 q N hN (fun n hn => by rw [hq n hn]) k
  exact zero_dvd_iff.mp this

theorem coeff_zipWith_add (X Y : List Int) (h : X.length = Y.length) (m : Nat) :
    coeff (List.zipWith (fun x y => x + y) X Y) m = coeff X m + coeff Y m := by
  by_cases hm : m < X.length
  · rw [coeff_of_lt _ m (by simp; omega), coeff_of_lt X m hm, coeff_of_lt Y m (by omega)]
    simp
  · rw [coeff_of_length_le _ m (by simp; omega), coeff_of_length_le X m (by omega),
      coeff_of_length_le Y m (by omega)]
    rfl

theorem coeff_map_emod (X : List Int) (p : Int) (m : Nat) :
    coeff (X.map fun c => c % p) m = coeff X m % p := by
  by_cases hm : m < X.length
  · rw [coeff_of_lt _ m (by simpa using hm), coeff_of_lt X m hm]
    simp
  · rw [coeff_of_length_le _ m (by simp; omega), coeff_of_length_le X m (by omega)]
    rfl

/-- C13. The sparse routine is idempotent on arbitrary input: for a positive
(in particular prime) `p` and well-formed sparse terms, `_fq_reduce` applied
to the buffer that `_fq_reduce` returned returns this buffer again, with
every coefficient unchanged. -/
theorem fq_reduce_sparse_idempotent (R a j : List Int) (len d : Nat) (p : Int) (hp : 0 < p)
    (h : SparseModulus a j len d) :
    ∃ R', _fq_reduce R a j len p = some R' ∧ _fq_reduce R' a j len p = some R' := by
  obtain ⟨R', hR', _, hz, hr, _⟩ := fq_reduce_sparse_remainder R a j len d p hp h
  obtain ⟨R'', hR'', hl, q, hhigh, hco⟩ := fq_reduce_sparse_spec R' a j len d p h
  have hq : ∀ k, coeff q k = 0 :=
    quotient_zero_of_high (sparse_modulus_coeff a j len) d
      (sparse_modulus_coeff_leading a j len d h) (sparse_modulus_coeff_above a j len d h)
      (coeff q) q.length (fun k hk => coeff_of_length_le q k hk)
      (fun n hn => by
        have := hhigh n hn
        rw [hz n hn, zero_sub, neg_eq_zero] at this
        exact this)
  have hmul : ∀ m, mul_coeff q (sparse_modulus_coeff a j len) m = 0 := by
    intro m
    unfold mul_coeff
    apply Finset.sum_eq_zero
    intro k _
    rw [hq k, zero_mul]
  have e : R'' = R' := by
    apply eq_of_coeff_eq R'' R' hl
    intro m
    rw [hco m, hmul m, sub_zero]
    exact Int.emod_eq_of_lt (hr m).1 (hr m).2
  refine ⟨R', hR', ?_⟩
  rw [hR'', e]

/-- Witness of C13: a buffer with a negative and a large coefficient, modulo
`5` and `x^2 + 2`. -/
theorem fq_reduce_sparse_idempotent_witness :
    ∃ R', _fq_reduce [-1, 12, 1, 7] [2, 1] [0, 2] 2 5 = some R' ∧
      _fq_reduce R' [2, 1] [0, 2] 2 5 = some R' :=
  fq_reduce_sparse_idempotent [-1, 12, 1, 7] [2, 1] [0, 2] 2 2 5 (by decide) (by decide)

/-- C14. Index safety of the elimination pass: with `len >= 1` terms, last
exponent `d` and the other exponents in `[0, d)`, every position
`j[k] + i - d` read or written for `d <= i < lenR` satisfies
`0 <= j[k] + i - d < i < lenR`; `_fq_reduce` returns a buffer, which it does
only when no access falls outside the buffer; and the round for the position
`i` changes neither this position nor a higher one. -/
theorem fq_reduce_index_safe (R a j : List Int) (len d : Nat) (p : Int)
    (h : SparseModulus a j len d) :
    (∀ k i : Nat, k < len - 1 → d ≤ i → i < R.length →
        0 ≤ coeff j k + (i : Int) - (d : Int) ∧ coeff j k + (i : Int) - (d : Int) < (i : Int) ∧
          (i : Int) < (R.length : Int)) ∧
      (∃ R', _fq_reduce R a j len p = some R' ∧ R'.length = R.length) ∧
      ∀ i : Nat, d ≤ i → i < R.length →
        ∃ R1, fq_reduce_inner a j d i (len - 1) R = some R1 ∧ R1.length = R.length ∧
          ∀ m, i ≤ m → coeff R1 m = coeff R m := by
  have h' := h
  obtain ⟨hlen, ha, hj, hd, hjk⟩ := h'
  refine ⟨?_, ?_, ?_⟩
  · intro k i hk hdi hi
    have := hjk k hk
    omega
  · obtain ⟨R', hR', hl, _⟩ := fq_reduce_sparse_spec R a j len d p h
    exact ⟨R', hR', hl⟩
  · intro i hdi hi
    obtain ⟨R1, hR1, hl, hco⟩ := fq_reduce_inner_spec a j d i hdi (len - 1) R
      (by omega) (by omega) hi hjk
    refine ⟨R1, hR1, hl, ?_⟩
    intro m hm
    rw [hco m, Finset.sum_eq_zero, mul_zero, sub_zero]
    intro k hk
    have := hjk k (Finset.mem_range.mp hk)
    rw [if_neg (by omega)]

/-- Witness of C14: a buffer of length four with the sparse terms of
`x^3 + x + 1`. -/
theorem fq_reduce_index_safe_witness :
    (∀ k i : Nat, k < 3 - 1 → 3 ≤ i → i < ([0, 0, 1, 1, 1] : List Int).length →
        0 ≤ coeff [0, 1, 3] k + (i : Int) - ((3 : Nat) : Int) ∧
          coeff [0, 1, 3] k + (i : Int) - ((3 : Nat) : Int) < (i : Int) ∧
          (i : Int) < ((([0, 0, 1, 1, 1] : List Int).length : Nat) : Int)) ∧
      (∃ R', _fq_reduce [0, 0, 1, 1, 1] [1, 1, 1] [0, 1, 3] 3 2 = some R' ∧
        R'.length = ([0, 0, 1, 1, 1] : List Int).length) ∧
      ∀ i : Nat, 3 ≤ i → i < ([0, 0, 1, 1, 1] : List Int).length →
        ∃ R1, fq_reduce_inner [1, 1, 1] [0, 1, 3] ((3 : Nat) : Int) i (3 - 1) [0, 0, 1, 1, 1]
            = some R1 ∧ R1.length = ([0, 0, 1, 1, 1] : List Int).length ∧
          ∀ m, i ≤ m → coeff R1 m = coeff [0, 0, 1, 1, 1] m :=
  fq_reduce_index_safe [0, 0, 1, 1, 1] [1, 1, 1] [0, 1, 3] 3 3 2 (by decide)

/-- C15. The sparse reduction is additive modulo `p`: for well-formed sparse
terms and two buffers `R1`, `R2` of the same length, the low `d` coefficients
that `_fq_reduce` leaves for the coefficientwise sum `R1 + R2` are the
coefficientwise sums of the low `d` coefficients it leaves for `R1` and for
`R2`, each sum reduced to its residue modulo `p`. -/
theorem fq_reduce_sparse_additive (R1 R2 a j : List Int) (len d : Nat) (p : Int)
    (h : SparseModulus a j len d) (hlen : R1.length = R2.length) :
    ∃ S1 S2 S12, _fq_reduce R1 a j len p = some S1 ∧ _fq_reduce R2 a j len p = some S2 ∧
      _fq_reduce (List.zipWith (fun x y => x + y) R1 R2) a j len p = some S12 ∧
      S12.take d =
        (List.zipWith (fun x y => x + y) (S1.take d) (S2.take d)).map (fun c => c % p) := by
  obtain ⟨S1, hS1, hl1, q1, hh1, hc1⟩ := fq_reduce_sparse_spec R1 a j len d p h
  obtain ⟨S2, hS2, hl2, q2, hh2, hc2⟩ := fq_reduce_sparse_spec R2 a j len d p h
  obtain ⟨S12, hS12, hl12, q12, hh12, hc12⟩ :=
    fq_reduce_sparse_spec (List.zipWith (fun x y => x + y) R1 R2) a j len d p h
  refine ⟨S1, S2, S12, hS1, hS2, hS12, ?_⟩
  have hsum : ∀ m, ∑ k in Finset.range (m + 1),
      (coeff q12 k - coeff q1 k - coeff q2 k) * sparse_modulus_coeff a j len (m - k) =
      mul_coeff q12 (sparse_modulus_coeff a j len) m
        - mul_coeff q1 (sparse_modulus_coeff a j len) m
        - mul_coeff q2 (sparse_modulus_coeff a j len) m := by
    intro m
    unfold mul_coeff
    simp only [sub_mul, Finset.sum_sub_distrib]
  have hq : ∀ k, coeff q12 k - coeff q1 k - coeff q2 k = 0 :=
    quotient_zero_of_high (sparse_modulus_coeff a j len) d
      (sparse_modulus_coeff_leading a j len d h) (sparse_modulus_coeff_above a j len d h)
      (fun k => coeff q12 k - coeff q1 k - coeff q2 k)
      (max q12.length (max q1.length q2.length))
      (fun k hk => by
        show coeff q12 k - coeff q1 k - coeff q2 k = 0
        rw [coeff_of_length_le q12 k (le_trans (le_max_left _ _) hk),
          coeff_of_length_le q1 k
            (le_trans (le_trans (le_max_left _ _) (le_max_right _ _)) hk),
          coeff_of_length_le q2 k
            (le_trans (le_trans (le_max_right _ _) (le_max_right _ _)) hk)]
        rfl)
      (fun n hn => by
        show ∑ k in Finset.range (n + 1),
          (coeff q12 k - coeff q1 k - coeff q2 k) * sparse_modulus_coeff a j len (n - k) = 0
        rw [hsum n]
        have e1 := hh1 n hn
        have e2 := hh2 n hn
        have e12 := hh12 n hn
        rw [coeff_zipWith_add R1 R2 hlen] at e12
        linarith)
  have hmul : ∀ m, mul_coeff q12 (sparse_modulus_coeff a j len) m =
      mul_coeff q1 (sparse_modulus_coeff a j len) m
        + mul_coeff q2 (sparse_modulus_coeff a j len) m := by
    intro m
    have e := hsum m
    rw [Finset.sum_eq_zero (fun k _ => by rw [hq k, zero_mul])] at e
    linarith
  have hco : ∀ m, coeff S12 m = (coeff S1 m + coeff S2 m) % p := by
    intro m
    rw [hc12 m, hc1 m, hc2 m, coeff_zipWith_add R1 R2 hlen, hmul m, ← Int.add_emod]
    congr 1
    ring
  have hL12 : S12.length = R1.length := by
    rw [hl12]; simp; omega
  apply eq_of_coeff_eq
  · simp only [List.length_take, List.length_map, List.length_zipWith]
    omega
  · intro m
    rw [coeff_map_emod, coeff_zipWith_add _ _ (by simp only [List.length_take]; omega),
      coeff_take, coeff_take, coeff_take]
    by_cases hm : m < d
    · simp only [hm, if_true]
      exact hco m
    · simp only [hm, if_false]
      rfl

/-- Witness of C15: two buffers of length four, modulo `5` and `x^2 + 2`. -/
theorem fq_reduce_sparse_additive_witness :
    ∃ S1 S2 S12, _fq_reduce [-1, 12, 1, 7] [2, 1] [0, 2] 2 5 = some S1 ∧
      _fq_reduce [3, 4, -1, -7] [2, 1] [0, 2] 2 5 = some S2 ∧
      _fq_reduce (List.zipWith (fun x y => x + y) [-1, 12, 1, 7] [3, 4, -1, -7])
        [2, 1] [0, 2] 2 5 = some S12 ∧
      S12.take 2 =
        (List.zipWith (fun x y => x + y) (S1.take 2) (S2.take 2)).map (fun c => c % 5) :=
  fq_reduce_sparse_additive [-1, 12, 1, 7] [3, 4, -1, -7] [2, 1] [0, 2] 2 2 5
    (by decide) (by decide)

/-! ## The maximal length in a matrix of polynomials -/

theorem FLINT_MAX_eq_max (x y : Int) : FLINT_MAX x y = max x y := by
  unfold FLINT_MAX
  split <;> omega

/-- Invariant of the inner loop: after `n` columns of the row `i` the value
bounds the start value and the lengths seen, and is one of them. -/
theorem max_length_cols_spec (A : fmpz_poly_mat_struct) (i : Nat) (max0 : Int) (n : Nat) :
    max0 ≤ max_length_cols A i max0 n ∧
      (∀ j, j < n → fmpz_poly_length (fmpz_poly_mat_entry A i j) ≤ max_length_cols A i max0 n) ∧
      (max_length_cols A i max0 n = max0 ∨
        ∃ j, j < n ∧ max_length_cols A i max0 n = fmpz_poly_length (fmpz_poly_mat_entry A i j)) := by
  induction n with
  | zero => exact ⟨le_rfl, fun j hj => absurd hj (Nat.not_lt_zero j), Or.inl rfl⟩
  | succ n ih =>
    obtain ⟨h0, hall, hex⟩ := ih
    have e : max_length_cols A i max0 (n + 1) =
        max (fmpz_poly_length (fmpz_poly_mat_entry A i n)) (max_length_cols A i max0 n) := by
      rw [max_length_cols, FLINT_MAX_eq_max]
    refine ⟨?_, ?_, ?_⟩
    · rw [e]; omega
    · intro j hj
      by_cases hjn : j = n
      · subst hjn; rw [e]; omega
      · have := hall j (by omega)
        rw [e]; omega
    · by_cases hgt : fmpz_poly_length (fmpz_poly_mat_entry A i n) > max_length_cols A i max0 n
      · exact Or.inr ⟨n, by omega, by rw [e]; omega⟩
      · have e' : max_length_cols A i max0 (n + 1) = max_length_cols A i max0 n := by
          rw [e]; omega
        rcases hex with h1 | ⟨j, hj, h2⟩
        · exact Or.inl (by rw [e', h1])
        · exact Or.inr ⟨j, by omega, by rw [e', h2]⟩

/-- Invariant of the outer loop: after `n` rows the value is non-negative,
bounds the length of every entry of these rows, and is `0` or the length of
one of their entries. -/
theorem max_length_rows_spec (A : fmpz_poly_mat_struct) (n : Nat) :
    0 ≤ max_length_rows A n ∧
      (∀ i j, i < n → j < A.c →
        fmpz_poly_length (fmpz_poly_mat_entry A i j) ≤ max_length_rows A n) ∧
      (max_length_rows A n = 0 ∨
        ∃ i j, i < n ∧ j < A.c ∧
          max_length_rows A n = fmpz_poly_length (fmpz_poly_mat_entry A i j)) := by
  induction n with
  | zero => exact ⟨le_rfl, fun i j hi _ => absurd hi (Nat.not_lt_zero i), Or.inl rfl⟩
  | succ n ih =>
    obtain ⟨h0, hall, hex⟩ := ih
    obtain ⟨c0, call, cex⟩ := max_length_cols_spec A n (max_length_rows A n) A.c
    have e : max_length_rows A (n + 1) = max_length_cols A n (max_length_rows A n) A.c := rfl
    refine ⟨by rw [e]; omega, ?_, ?_⟩
    · intro i j hi hj
      rw [e]
      by_cases hin : i = n
      · subst hin; exact call j hj
      · exact le_trans (hall i j (by omega) hj) c0
    · rw [e]
      rcases cex with h1 | ⟨j, hj, h2⟩
      · rcases hex with h3 | ⟨i, j, hi, hj, h4⟩
        · exact Or.inl (by rw [h1, h3])
        · exact Or.inr ⟨i, j, by omega, hj, by rw [h1, h4]⟩
      · exact Or.inr ⟨n, j, by omega, hj, h2⟩

/-- C16. For every matrix `A` of polynomials with `r` rows and `c` columns,
`fmpz_poly_mat_max_length` returns a value `m` such that every entry of `A`
has length at most `m` and `m` is the length of some entry of `A` or `0`; it
returns `0` when `A` has no rows, when it has no columns and when every entry
is the zero polynomial. -/
theorem fmpz_poly_mat_max_length_spec (A : fmpz_poly_mat_struct) :
    (∀ i j, i < A.r → j < A.c →
        ((fmpz_poly_mat_entry A i j).length : Int) ≤ fmpz_poly_mat_max_length A) ∧
      (fmpz_poly_mat_max_length A = 0 ∨
        ∃ i j, i < A.r ∧ j < A.c ∧
          fmpz_poly_mat_max_length A = ((fmpz_poly_mat_entry A i j).length : Int)) ∧
      (A.r = 0 → fmpz_poly_mat_max_length A = 0) ∧
      (A.c = 0 → fmpz_poly_mat_max_length A = 0) ∧
      ((∀ i j, i < A.r → j < A.c → (fmpz_poly_mat_entry A i j).length = 0) →
        fmpz_poly_mat_max_length A = 0) := by
  obtain ⟨_, hall, hex⟩ := max_length_rows_spec A A.r
  have hzero : (∀ i j, i < A.r → j < A.c → (fmpz_poly_mat_entry A i j).length = 0) →
      fmpz_poly_mat_max_length A = 0 := by
    intro hz
    rcases hex with h0 | ⟨i, j, hi, hj, h1⟩
    · exact h0
    · unfold fmpz_poly_mat_max_length
      rw [h1]
      unfold fmpz_poly_length
      rw [hz i j hi hj]
      rfl
  refine ⟨hall, hex, ?_, ?_, hzero⟩
  · intro hr
    exact hzero (fun i j hi _ => by omega)
  · intro hc
    exact hzero (fun i j _ hj => by omega)

/-- The maximal length in the `2 x 2` example matrix is `3`, the length of its
entry `x^2`. -/
theorem fmpz_poly_mat_max_length_example : fmpz_poly_mat_max_length mat_2x2 = 3 := by
  decide
